import Mathlib

/-!
Verification of the system font index of the typesetting repository.

The fontscan components (RuneSet, cache codec, substitution engine,
matcher) are present in the repository only through their tests and
documentation; their definitions below are therefore modelled from the
specification text, as the doc comments state.  The opentype tag, the
two segment builders and the glyph data dispatch are translated directly
from the Go source files.

Layout: all definitions come first, then the lemmas and the claim
theorems.
-/

set_option maxRecDepth 100000

namespace Fontscan

/-- Modelled from the spec: the fontscan RuneSet implementation is not in
the sources (only its test calls `NewRuneSet`).  Per the spec, a RuneSet is
a sparse collection of fixed-size bit blocks keyed by block index; here a
block holds 64 codepoints and a set is a list of (block key, bit mask)
pairs with distinct keys. -/
def RuneSet : Type := List (Nat × Nat)

instance : DecidableEq RuneSet :=
  inferInstanceAs (DecidableEq (List (Nat × Nat)))

/-- The block list underlying a RuneSet. -/
def RuneSet.blocks (s : RuneSet) : List (Nat × Nat) := s

/-- Modelled from the spec: membership test.  The block of codepoint `r` is
`r / 64` and its bit inside the block is `r % 64`. -/
def RuneSet.Contains : RuneSet → Nat → Bool
  | [], _ => false
  | (k, m) :: rest, r =>
    if r / 64 = k then m.testBit (r % 64) else RuneSet.Contains rest r

/-- Modelled from the spec: insert one codepoint, merging into the block
with the same key when it exists and appending a fresh block otherwise. -/
def RuneSet.insertRune : RuneSet → Nat → RuneSet
  | [], r => [(r / 64, 2 ^ (r % 64))]
  | (k, m) :: rest, r =>
    if r / 64 = k then (k, m ||| 2 ^ (r % 64)) :: rest
    else (k, m) :: RuneSet.insertRune rest r

/-- Modelled from the spec: `New(values...)` builds a set from an arbitrary
unordered input list; duplicates are absorbed and construction never
fails. -/
def NewRuneSet (values : List Nat) : RuneSet :=
  values.foldl RuneSet.insertRune []

/-! ## Cache codec

Modelled from the spec: the binary cache codec of the fontscan package is
not in the sources (only its round-trip test `Test_serializeFootprints`).
The spec describes the layout as a header (format version, footprint
count) followed by one variable-length record per footprint: the family
as length-prefixed bytes, the aspect as fixed-width numeric fields, the
rune coverage as a length-prefixed block list, the format tag, the path
and the face index.  Bytes are modelled as `Fin 256`; the fractional
weight and stretch values are stored as fixed-width 32-bit fields, whose
bit patterns are modelled as natural numbers below `2 ^ 32`. -/

abbrev Byte := Fin 256

/-- Modelled from the spec: the error cases of the cache decoder — an
unrecognized header version, a stream truncated mid-record, and a length
prefix that would read past the end of the buffer. -/
inductive DecodeError where
  | badVersion
  | truncated
  | lengthOverrun
deriving DecidableEq

/-- Modelled from the spec: style is an enumeration stored in one byte;
weight and stretch are fixed-width 32-bit numeric fields, kept here as
their 32-bit patterns. -/
structure Aspect where
  style : Byte
  weight : Nat
  stretch : Nat
deriving DecidableEq

/-- Modelled from the spec: the per-font summary record persisted by the
cache codec. -/
structure Footprint where
  family : List Byte
  runes : RuneSet
  aspect : Aspect
  format : Byte
  path : List Byte
  faceIndex : Nat
deriving DecidableEq

/-- Truncate a natural number to one byte, as the Go byte conversion
does. -/
def byteOf (n : Nat) : Byte := ⟨n % 256, Nat.mod_lt _ (by norm_num)⟩

/-- Little-endian 4-byte encoding of a 32-bit value. -/
def encodeU32 (n : Nat) : List Byte :=
  [byteOf n, byteOf (n / 2 ^ 8), byteOf (n / 2 ^ 16), byteOf (n / 2 ^ 24)]

/-- Little-endian 8-byte encoding of a 64-bit value. -/
def encodeU64 (n : Nat) : List Byte :=
  [byteOf n, byteOf (n / 2 ^ 8), byteOf (n / 2 ^ 16), byteOf (n / 2 ^ 24),
    byteOf (n / 2 ^ 32), byteOf (n / 2 ^ 40), byteOf (n / 2 ^ 48),
    byteOf (n / 2 ^ 56)]

/-- Read a 4-byte little-endian value, or fail on a truncated stream. -/
def decodeU32 : List Byte → Except DecodeError (Nat × List Byte)
  | b0 :: b1 :: b2 :: b3 :: rest =>
    .ok (b0.val + 2 ^ 8 * b1.val + 2 ^ 16 * b2.val + 2 ^ 24 * b3.val, rest)
  | _ => .error .truncated

/-- Read an 8-byte little-endian value, or fail on a truncated stream. -/
def decodeU64 : List Byte → Except DecodeError (Nat × List Byte)
  | b0 :: b1 :: b2 :: b3 :: b4 :: b5 :: b6 :: b7 :: rest =>
    .ok (b0.val + 2 ^ 8 * b1.val + 2 ^ 16 * b2.val + 2 ^ 24 * b3.val
      + 2 ^ 32 * b4.val + 2 ^ 40 * b5.val + 2 ^ 48 * b6.val
      + 2 ^ 56 * b7.val, rest)
  | _ => .error .truncated

/-- Read a single byte, or fail on a truncated stream. -/
def readByte : List Byte → Except DecodeError (Byte × List Byte)
  | [] => .error .truncated
  | b :: rest => .ok (b, rest)

/-- Read `n` raw bytes; fails when the length prefix would read past the
end of the buffer. -/
def readBytes (n : Nat) (bs : List Byte) :
    Except DecodeError (List Byte × List Byte) :=
  if n ≤ bs.length then .ok (bs.take n, bs.drop n) else .error .lengthOverrun

/-- Aspect record: style byte then the two fixed-width 32-bit fields. -/
def encodeAspect (a : Aspect) : List Byte :=
  a.style :: (encodeU32 a.weight ++ encodeU32 a.stretch)

/-- Decode an aspect record. -/
def decodeAspect (bs : List Byte) :
    Except DecodeError (Aspect × List Byte) := do
  let (style, bs) ← readByte bs
  let (weight, bs) ← decodeU32 bs
  let (stretch, bs) ← decodeU32 bs
  .ok (⟨style, weight, stretch⟩, bs)

/-- One rune coverage block: 32-bit key then 64-bit mask. -/
def encodeRuneBlock (km : Nat × Nat) : List Byte :=
  encodeU32 km.1 ++ encodeU64 km.2

/-- Rune coverage: length-prefixed block list. -/
def encodeRunes (s : RuneSet) : List Byte :=
  encodeU32 s.length ++ s.flatMap encodeRuneBlock

/-- Decode `n` rune coverage blocks. -/
def decodeRuneBlocks : Nat → List Byte →
    Except DecodeError (List (Nat × Nat) × List Byte)
  | 0, bs => .ok ([], bs)
  | n + 1, bs => do
    let (k, bs) ← decodeU32 bs
    let (m, bs) ← decodeU64 bs
    let (rest, bs) ← decodeRuneBlocks n bs
    .ok ((k, m) :: rest, bs)

/-- Decode a length-prefixed rune coverage block list. -/
def decodeRunes (bs : List Byte) :
    Except DecodeError (RuneSet × List Byte) := do
  let (n, bs) ← decodeU32 bs
  decodeRuneBlocks n bs

/-- One footprint record, in the order given by the spec: length-prefixed
family, aspect, rune coverage, format tag, length-prefixed path, face
index. -/
def encodeFootprint (fp : Footprint) : List Byte :=
  encodeU32 fp.family.length ++ fp.family ++ encodeAspect fp.aspect
    ++ encodeRunes fp.runes ++ [fp.format] ++ encodeU32 fp.path.length
    ++ fp.path ++ encodeU32 fp.faceIndex

/-- Decode one footprint record. -/
def decodeFootprint (bs : List Byte) :
    Except DecodeError (Footprint × List Byte) := do
  let (flen, bs) ← decodeU32 bs
  let (family, bs) ← readBytes flen bs
  let (aspect, bs) ← decodeAspect bs
  let (runes, bs) ← decodeRunes bs
  let (format, bs) ← readByte bs
  let (plen, bs) ← decodeU32 bs
  let (path, bs) ← readBytes plen bs
  let (faceIndex, bs) ← decodeU32 bs
  .ok (⟨family, runes, aspect, format, path, faceIndex⟩, bs)

/-- Decode `n` footprint records. -/
def decodeFootprintList : Nat → List Byte →
    Except DecodeError (List Footprint × List Byte)
  | 0, bs => .ok ([], bs)
  | n + 1, bs => do
    let (fp, bs) ← decodeFootprint bs
    let (rest, bs) ← decodeFootprintList n bs
    .ok (fp :: rest, bs)

/-- The recognized cache format version. -/
def cacheVersion : Byte := 1

/-- Modelled from the spec: `Encode(Index)` — header (version byte and
32-bit footprint count) followed by the footprint records.  The index
given to the codec is its ordered footprint collection. -/
def Encode (idx : List Footprint) : List Byte :=
  cacheVersion :: (encodeU32 idx.length ++ idx.flatMap encodeFootprint)

/-- Modelled from the spec: `Decode(bytes)` — checks the header version,
then reads the announced number of footprint records, failing with a
`DecodeError` on an unrecognized version, a truncated stream, or a length
prefix extending past the buffer. -/
def Decode (bs : List Byte) : Except DecodeError (List Footprint) :=
  match bs with
  | [] => .error .truncated
  | v :: bs =>
    if v = cacheVersion then do
      let (n, bs) ← decodeU32 bs
      let (fps, _) ← decodeFootprintList n bs
      .ok fps
    else .error .badVersion

/-- A rune coverage list that fits the fixed-width fields of the cache
layout. -/
def ValidRunes (s : RuneSet) : Prop :=
  s.length < 2 ^ 32 ∧ ∀ km ∈ s.blocks, km.1 < 2 ^ 32 ∧ km.2 < 2 ^ 64

/-- A footprint whose fields fit the fixed-width fields of the cache
layout. -/
def ValidFootprint (fp : Footprint) : Prop :=
  fp.family.length < 2 ^ 32 ∧ fp.aspect.weight < 2 ^ 32
    ∧ fp.aspect.stretch < 2 ^ 32 ∧ ValidRunes fp.runes
    ∧ fp.path.length < 2 ^ 32 ∧ fp.faceIndex < 2 ^ 32

/-- A valid index: footprint count and every footprint fit the layout. -/
def ValidIndex (idx : List Footprint) : Prop :=
  idx.length < 2 ^ 32 ∧ ∀ fp ∈ idx, ValidFootprint fp

instance (s : RuneSet) : Decidable (ValidRunes s) := by
  unfold ValidRunes; infer_instance

instance (fp : Footprint) : Decidable (ValidFootprint fp) := by
  unfold ValidFootprint; infer_instance

instance (idx : List Footprint) : Decidable (ValidIndex idx) := by
  unfold ValidIndex; infer_instance

/-- A concrete index exercising the edge cases of the round-trip claim: a
footprint with sparse rune coverage containing the codepoints 0 and
0x10FFFF, fractional weight and stretch bit patterns (the 32-bit
patterns of 200.0 and 0.45), and a second footprint with an empty family
and an empty RuneSet. -/
def demoIndex : List Footprint :=
  [{ family := [97, 32, 115], runes := NewRuneSet [1, 0, 2, 0x789, 0xFFFEE, 0x10FFFF],
     aspect := { style := 1, weight := 0x43480000, stretch := 0x3EE66666 },
     format := 2, path := [47, 97], faceIndex := 0 },
   { family := [], runes := NewRuneSet [],
     aspect := { style := 0, weight := 0, stretch := 0 },
     format := 0, path := [], faceIndex := 3 }]

/-! ## Substitution engine

Modelled from the spec: the substitution engine of the fontscan package
is not in the sources (the readme documents it).  A rule has a closed
test (the family equals a given name) and an ordered list of additions;
`Expand` walks the fixed priority-ordered rule list, starting from the
requested family, appending the additions of each matching rule that are
not already present.  The walk is a single fold, so it terminates on
every input. -/

/-- Modelled from the spec: one substitution rule. -/
structure SubstitutionRule where
  test : String
  additions : List String

/-- Append a family unless it is already present. -/
def appendIfAbsent (acc : List String) (f : String) : List String :=
  if f ∈ acc then acc else acc ++ [f]

/-- Modelled from the spec: apply one rule — when its test matches a
family already in the accumulating result, append its additions that are
not yet present, preserving their order. -/
def applyRule (acc : List String) (r : SubstitutionRule) : List String :=
  if r.test ∈ acc then r.additions.foldl appendIfAbsent acc else acc

/-- Modelled from the spec: `Expand(requestedFamily)` walks the fixed
priority-ordered rule list once, starting from the requested family. -/
def Expand (rules : List SubstitutionRule) (requested : String) :
    List String :=
  rules.foldl applyRule [requested]

/-- The example rule list of the readme: Arial adds Arimo, Arimo adds
sans-serif, sans-serif adds DejaVu Sans and Verdana. -/
def demoRules : List SubstitutionRule :=
  [⟨"Arial", ["Arimo"]⟩, ⟨"Arimo", ["sans-serif"]⟩,
    ⟨"sans-serif", ["DejaVu Sans", "Verdana"]⟩]

/-! ## Matcher

Modelled from the spec: the matcher of the fontscan package is not in
the sources (the readme documents its aspect best-match behavior).  It
filters footprints by the family chain and the optional required rune,
then narrows each family group by the CSS font-matching distance rules
in strict axis priority: stretch, then style, then weight.  Weight and
stretch are numeric with fractional values, modelled as rationals. -/

/-- Modelled from the spec: the style axis enumeration. -/
inductive Style where
  | normal
  | italic
  | oblique
deriving DecidableEq

/-- Modelled from the spec: the aspect of a matcher query — style,
CSS-like numeric weight (1 to 1000) and numeric stretch ratio (1 is
normal). -/
structure MatchAspect where
  style : Style
  weight : ℚ
  stretch : ℚ
deriving DecidableEq

/-- Modelled from the spec: the footprint view the matcher consumes. -/
structure MatchFootprint where
  family : String
  runes : RuneSet
  aspect : MatchAspect
deriving DecidableEq

/-- Modelled from the spec: stretch axis key — exact match is best; the
fallback searches below the desired value first when it is at most the
normal ratio 1, and above first otherwise.  Keys compare
lexicographically, smaller is better. -/
def stretchKey (desired c : ℚ) : Nat × ℚ :=
  if desired ≤ 1 then
    if c ≤ desired then (0, desired - c) else (1, c - desired)
  else
    if desired ≤ c then (0, c - desired) else (1, desired - c)

/-- Modelled from the spec: style axis score — exact match scores 0;
Italic falls back to Oblique then Normal; Oblique falls back to Italic
then Normal; Normal falls back to Oblique then Italic. -/
def styleScore (desired c : Style) : Nat :=
  match desired, c with
  | .italic, .italic => 0
  | .italic, .oblique => 1
  | .italic, .normal => 2
  | .oblique, .oblique => 0
  | .oblique, .italic => 1
  | .oblique, .normal => 2
  | .normal, .normal => 0
  | .normal, .oblique => 1
  | .normal, .italic => 2

/-- Modelled from the spec: weight axis key — exact match is best; a
desired weight below 400 searches downward then upward; between 400 and
500 inclusive it searches toward 500, then downward, then upward; above
500 it searches upward then downward. -/
def weightKey (desired c : ℚ) : Nat × ℚ :=
  if desired < 400 then
    if c ≤ desired then (0, desired - c) else (1, c - desired)
  else if desired ≤ 500 then
    if desired ≤ c ∧ c ≤ 500 then (0, c - desired)
    else if c < desired then (1, desired - c)
    else (2, c - desired)
  else
    if desired ≤ c then (0, c - desired) else (1, desired - c)

/-- Lexicographic comparison of axis keys: smaller is better. -/
def keyLT (x y : Nat × ℚ) : Bool :=
  decide (x.1 < y.1) || (decide (x.1 = y.1) && decide (x.2 < y.2))

/-- The minimal key of a candidate list under `keyLT`. -/
def minKey (key : MatchFootprint → Nat × ℚ) :
    List MatchFootprint → Option (Nat × ℚ)
  | [] => none
  | fp :: rest =>
    some (rest.foldl
      (fun acc fp2 => if keyLT (key fp2) acc then key fp2 else acc) (key fp))

/-- Modelled from the spec: narrow a candidate set to the footprints
achieving the best score on one axis. -/
def filterBest (key : MatchFootprint → Nat × ℚ)
    (l : List MatchFootprint) : List MatchFootprint :=
  match minKey key l with
  | none => []
  | some best => l.filter (fun fp => decide (key fp = best))

/-- Modelled from the spec: the candidates of one family group — family
equality and, when a required rune is given, coverage of that rune. -/
def familyCandidates (idx : List MatchFootprint) (fam : String)
    (required : Option Nat) : List MatchFootprint :=
  idx.filter (fun fp =>
    decide (fp.family = fam) &&
      match required with
      | none => true
      | some r => fp.runes.Contains r)

/-- Modelled from the spec: rank one family group by the three axes in
strict priority order — stretch, then style, then weight — narrowing to
the best on each axis before applying the next. -/
def matchFamily (idx : List MatchFootprint) (fam : String)
    (a : MatchAspect) (required : Option Nat) : List MatchFootprint :=
  let cands := familyCandidates idx fam required
  let s1 := filterBest (fun fp => stretchKey a.stretch fp.aspect.stretch) cands
  let s2 := filterBest (fun fp => (styleScore a.style fp.aspect.style, 0)) s1
  filterBest (fun fp => weightKey a.weight fp.aspect.weight) s2

/-- Modelled from the spec: `Match` — family-chain order dominates; each
family group of the chain contributes its best-scoring footprints, in
chain order.  An empty result is an empty list, never an error. -/
def Match (idx : List MatchFootprint) (chain : List String)
    (a : MatchAspect) (required : Option Nat) : List MatchFootprint :=
  chain.flatMap (fun fam => matchFamily idx fam a required)

/-- The (Normal, Bold) candidate of the aspect best-match scenario. -/
def fpNormalBold : MatchFootprint :=
  ⟨"family", NewRuneSet [], ⟨.normal, 700, 1⟩⟩

/-- The (Oblique, Bold) candidate of the aspect best-match scenario. -/
def fpObliqueBold : MatchFootprint :=
  ⟨"family", NewRuneSet [], ⟨.oblique, 700, 1⟩⟩

end Fontscan

namespace Opentype

/-! ## Opentype tags

Translated from src/font/opentype/opentype.go: `NewTag` packs four
bytes big-endian with shifts and bitwise or, `MustNewTag` panics unless
its argument is exactly 4 bytes long (the panic is modelled as `none`),
and `Tag.String` unpacks the four bytes.  A `Tag` is a `uint32`,
modelled as a natural number below `2 ^ 32`. -/

abbrev Byte := Fontscan.Byte

/-- NewTag returns the tag for the four bytes a b c d, packed
big-endian exactly as the source: or of shifted bytes. -/
def NewTag (a b c d : Byte) : Nat :=
  d.val ||| (c.val <<< 8) ||| (b.val <<< 16) ||| (a.val <<< 24)

/-- MustNewTag gives the Tag for a byte string; the source panics when
the string is not 4 bytes long, modelled by `none`. -/
def MustNewTag : List Byte → Option Nat
  | [a, b, c, d] => some (NewTag a b c d)
  | _ => none

/-- The ASCII form of a tag: its four bytes, big-endian, each Go byte
conversion truncating modulo 256. -/
def tagString (t : Nat) : List Byte :=
  [Fontscan.byteOf (t >>> 24), Fontscan.byteOf (t >>> 16),
    Fontscan.byteOf (t >>> 8), Fontscan.byteOf t]

/-! ## Segment builders

Translated from the two SegmentsBuilder variants of the sources: the
bit-packed variant of src/font/opentype/opentype.go, whose ops pack two
bits per point (01 move, 10 line, 1111 quad, 111111 cube), and the
transition-table variant, whose ops form an enumeration and whose steps
are driven by the `Transitions` array.  The builders never inspect the
point coordinates, so the point type is a parameter. -/

variable {P : Type}

/-- The three argument slots of a segment. -/
structure Args (P : Type) where
  a0 : P
  a1 : P
  a2 : P

/-- Write one argument slot, as the Go assignment tail.Args[at] = p; an
index past 2 cannot occur. -/
def Args.set (args : Args P) : Nat → P → Args P
  | 0, p => ⟨p, args.a1, args.a2⟩
  | 1, p => ⟨args.a0, p, args.a2⟩
  | 2, p => ⟨args.a0, args.a1, p⟩
  | _ + 3, _ => args

/-- A segment: a packed operation and up to three points. -/
structure Seg (P : Type) where
  op : Nat
  args : Args P

/-- The op enumeration of the transition-table variant, in source
order. -/
def SegmentOpMoveTo : Nat := 1

def SegmentOpLineTo : Nat := 2

def SegmentOpQuadTo : Nat := 3

def SegmentOpMoveTo_MoveTo : Nat := 4

def SegmentOpMoveTo_LineTo : Nat := 5

def SegmentOpLineTo_LineTo : Nat := 6

def SegmentOpLineTo_MoveTo : Nat := 7

def SegmentOpCubeTo : Nat := 8

def SegmentOpMoveTo_QuadTo : Nat := 9

def SegmentOpLineTo_QuadTo : Nat := 10

def SegmentOpQuadTo_MoveTo : Nat := 11

def SegmentOpQuadTo_LineTo : Nat := 12

def SegmentOpMoveTo_MoveTo_MoveTo : Nat := 13

def SegmentOpMoveTo_LineTo_MoveTo : Nat := 14

def SegmentOpLineTo_LineTo_MoveTo : Nat := 15

def SegmentOpLineTo_MoveTo_MoveTo : Nat := 16

def SegmentOpMoveTo_MoveTo_LineTo : Nat := 17

def SegmentOpMoveTo_LineTo_LineTo : Nat := 18

def SegmentOpLineTo_LineTo_LineTo : Nat := 19

def SegmentOpLineTo_MoveTo_LineTo : Nat := 20

/-- The Transitions table of the transition-table variant: row is the
added op minus one, column the pending op; the value packs the new op
with the write position shifted left by 5.  Entries absent from the
source array literal are the Go zero value 0; a pending op outside the
column range cannot occur. -/
def Transitions (row col : Nat) : Nat :=
  match row, col with
  | 0, 0 => SegmentOpMoveTo
  | 0, 1 => SegmentOpMoveTo_MoveTo ||| (1 <<< 5)
  | 0, 2 => SegmentOpLineTo_MoveTo ||| (1 <<< 5)
  | 0, 3 => SegmentOpQuadTo_MoveTo ||| (2 <<< 5)
  | 0, 4 => SegmentOpMoveTo_MoveTo_MoveTo ||| (2 <<< 5)
  | 0, 5 => SegmentOpMoveTo_LineTo_MoveTo ||| (2 <<< 5)
  | 0, 6 => SegmentOpLineTo_LineTo_MoveTo ||| (2 <<< 5)
  | 0, 7 => SegmentOpLineTo_MoveTo_MoveTo ||| (2 <<< 5)
  | 1, 0 => SegmentOpLineTo
  | 1, 1 => SegmentOpMoveTo_LineTo ||| (1 <<< 5)
  | 1, 2 => SegmentOpLineTo_LineTo ||| (1 <<< 5)
  | 1, 3 => SegmentOpQuadTo_LineTo ||| (2 <<< 5)
  | 1, 4 => SegmentOpMoveTo_MoveTo_LineTo ||| (2 <<< 5)
  | 1, 5 => SegmentOpMoveTo_LineTo_LineTo ||| (2 <<< 5)
  | 1, 6 => SegmentOpLineTo_LineTo_LineTo ||| (2 <<< 5)
  | 1, 7 => SegmentOpLineTo_MoveTo_LineTo ||| (2 <<< 5)
  | 2, 0 => SegmentOpQuadTo
  | 2, 1 => SegmentOpMoveTo_QuadTo ||| (1 <<< 5)
  | 2, 2 => SegmentOpLineTo_QuadTo ||| (1 <<< 5)
  | _, _ => 0

/-- The transition-table builder holds only the pending tail; the
complete list is threaded through the calls, as in the source. -/
structure TransBuilder (P : Type) where
  tail : Seg P

/-- Translated from the transition-table MoveTo.  The builder receiver
is destructured into its pending op and arguments. -/
def TransBuilder.moveTo : TransBuilder P → List (Seg P) → P →
    List (Seg P) × TransBuilder P
  | ⟨⟨op, args⟩⟩, complete, p =>
    let transition := Transitions (SegmentOpMoveTo - 1) op
    let toOp := transition &&& 31
    let at_ := transition >>> 5
    let tail : Seg P := ⟨toOp, args.set at_ p⟩
    if at_ == 2 then (complete ++ [tail], ⟨⟨0, tail.args⟩⟩)
    else (complete, ⟨tail⟩)

/-- Translated from the transition-table LineTo. -/
def TransBuilder.lineTo : TransBuilder P → List (Seg P) → P →
    List (Seg P) × TransBuilder P
  | ⟨⟨op, args⟩⟩, complete, p =>
    let transition := Transitions (SegmentOpLineTo - 1) op
    let toOp := transition &&& 31
    let at_ := transition >>> 5
    let tail : Seg P := ⟨toOp, args.set at_ p⟩
    if at_ == 2 then (complete ++ [tail], ⟨⟨0, tail.args⟩⟩)
    else (complete, ⟨tail⟩)

/-- Translated from the transition-table QuadTo. -/
def TransBuilder.quadTo : TransBuilder P → List (Seg P) → P → P →
    List (Seg P) × TransBuilder P
  | ⟨⟨op, args⟩⟩, complete, a, b =>
    let transition := Transitions (SegmentOpQuadTo - 1) op
    if transition == 0 then
      let complete := complete ++ [⟨op, args⟩]
      let tail : Seg P := ⟨SegmentOpQuadTo, (args.set 0 a).set 1 b⟩
      (complete, ⟨tail⟩)
    else
      let toOp := transition &&& 31
      let at_ := transition >>> 5
      let tail : Seg P := ⟨toOp, (args.set at_ a).set (at_ + 1) b⟩
      if at_ == 1 then (complete ++ [tail], ⟨⟨0, tail.args⟩⟩)
      else (complete, ⟨tail⟩)

/-- Translated from the transition-table CubeTo. -/
def TransBuilder.cubeTo : TransBuilder P → List (Seg P) → P → P → P →
    List (Seg P) × TransBuilder P
  | ⟨⟨op, args⟩⟩, complete, a, b, c =>
    let flushed :=
      if op ≠ 0 then
        (complete ++ [⟨op, args⟩], (⟨⟨0, args⟩⟩ : TransBuilder P))
      else (complete, ⟨⟨op, args⟩⟩)
    (flushed.1 ++ [⟨SegmentOpCubeTo, ⟨a, b, c⟩⟩], flushed.2)

/-- Translated from the transition-table Finish. -/
def TransBuilder.finish : TransBuilder P → List (Seg P) → List (Seg P)
  | ⟨⟨op, args⟩⟩, complete =>
    if op ≠ 0 then complete ++ [⟨op, args⟩] else complete

/-- bits.Len8 of the Go standard library: the minimal number of bits
required to represent a byte value. -/
def bitsLen8 (n : Nat) : Nat :=
  if n < 1 then 0
  else if n < 2 then 1
  else if n < 4 then 2
  else if n < 8 then 3
  else if n < 16 then 4
  else if n < 32 then 5
  else if n < 64 then 6
  else if n < 128 then 7
  else 8

/-- Translated from the bit-packed variant: SegmentOp.Used counts the
argument slots already taken by the packed op. -/
def usedSlots (op : Nat) : Nat := (bitsLen8 op + 1) / 2

/-- The bit-packed op constants of the bit-packed variant. -/
def BitOpMoveTo : Nat := 1

def BitOpLineTo : Nat := 2

def BitOpQuadTo : Nat := 15

def BitOpCubeTo : Nat := 63

/-- The bit-packed builder: the complete list lives inside the
builder, as in the source. -/
structure BitBuilder (P : Type) where
  complete : List (Seg P)
  tail : Seg P

/-- Translated from the bit-packed MoveTo; the Go switch has no default
case, so a used count past 2 (which cannot occur) leaves the builder
unchanged. -/
def BitBuilder.moveTo : BitBuilder P → P → BitBuilder P
  | ⟨complete, ⟨op, args⟩⟩, p =>
    match usedSlots op with
    | 0 => ⟨complete, ⟨BitOpMoveTo, args.set 0 p⟩⟩
    | 1 => ⟨complete, ⟨op ||| (BitOpMoveTo <<< 2), args.set 1 p⟩⟩
    | 2 =>
      let tail : Seg P := ⟨op ||| (BitOpMoveTo <<< 4), args.set 2 p⟩
      ⟨complete ++ [tail], ⟨0, tail.args⟩⟩
    | _ + 3 => ⟨complete, ⟨op, args⟩⟩

/-- Translated from the bit-packed LineTo. -/
def BitBuilder.lineTo : BitBuilder P → P → BitBuilder P
  | ⟨complete, ⟨op, args⟩⟩, p =>
    match usedSlots op with
    | 0 => ⟨complete, ⟨BitOpLineTo, args.set 0 p⟩⟩
    | 1 => ⟨complete, ⟨op ||| (BitOpLineTo <<< 2), args.set 1 p⟩⟩
    | 2 =>
      let tail : Seg P := ⟨op ||| (BitOpLineTo <<< 4), args.set 2 p⟩
      ⟨complete ++ [tail], ⟨0, tail.args⟩⟩
    | _ + 3 => ⟨complete, ⟨op, args⟩⟩

/-- Translated from the bit-packed QuadTo: one free slot packs the quad
at position 1 and flushes; an empty tail starts a fresh quad; otherwise
the tail is flushed first and a fresh quad started. -/
def BitBuilder.quadTo : BitBuilder P → P → P → BitBuilder P
  | ⟨complete, ⟨op, args⟩⟩, a, b =>
    match usedSlots op with
    | 0 => ⟨complete, ⟨BitOpQuadTo, (args.set 0 a).set 1 b⟩⟩
    | 1 =>
      let tail : Seg P := ⟨op ||| (BitOpQuadTo <<< 2), (args.set 1 a).set 2 b⟩
      ⟨complete ++ [tail], ⟨0, tail.args⟩⟩
    | _ + 2 => ⟨complete ++ [⟨op, args⟩],
        ⟨BitOpQuadTo, (args.set 0 a).set 1 b⟩⟩

/-- Translated from the bit-packed CubeTo. -/
def BitBuilder.cubeTo : BitBuilder P → P → P → P → BitBuilder P
  | ⟨complete, ⟨op, args⟩⟩, a, b, c =>
    let flushed : BitBuilder P :=
      if op ≠ 0 then ⟨complete ++ [⟨op, args⟩], ⟨0, args⟩⟩
      else ⟨complete, ⟨op, args⟩⟩
    ⟨flushed.complete ++ [⟨BitOpCubeTo, ⟨a, b, c⟩⟩], flushed.tail⟩

/-- Translated from the bit-packed Finish. -/
def BitBuilder.finish : BitBuilder P → List (Seg P)
  | ⟨complete, ⟨op, args⟩⟩ =>
    if op ≠ 0 then complete ++ [⟨op, args⟩] else complete

/-- One drawing command, applied to either builder. -/
inductive Cmd (P : Type) where
  | moveTo (p : P)
  | lineTo (p : P)
  | quadTo (a b : P)
  | cubeTo (a b c : P)

/-- Run a command list through the bit-packed builder. -/
def BitBuilder.run (builder : BitBuilder P) : List (Cmd P) → BitBuilder P
  | [] => builder
  | .moveTo p :: rest => (builder.moveTo p).run rest
  | .lineTo p :: rest => (builder.lineTo p).run rest
  | .quadTo a b :: rest => (builder.quadTo a b).run rest
  | .cubeTo a b c :: rest => (builder.cubeTo a b c).run rest

/-- The bit-packed build of a command list: run from the zero builder,
then Finish.  The argument slots start at an arbitrary point `d`, as the
Go zero value. -/
def runBit (d : P) (cmds : List (Cmd P)) : List (Seg P) :=
  (BitBuilder.run ⟨[], ⟨0, ⟨d, d, d⟩⟩⟩ cmds).finish

/-- Run a command list through the transition-table builder, threading
the complete list. -/
def TransBuilder.run (builder : TransBuilder P) (complete : List (Seg P)) :
    List (Cmd P) → List (Seg P) × TransBuilder P
  | [] => (complete, builder)
  | .moveTo p :: rest =>
    let step := builder.moveTo complete p
    step.2.run step.1 rest
  | .lineTo p :: rest =>
    let step := builder.lineTo complete p
    step.2.run step.1 rest
  | .quadTo a b :: rest =>
    let step := builder.quadTo complete a b
    step.2.run step.1 rest
  | .cubeTo a b c :: rest =>
    let step := builder.cubeTo complete a b c
    step.2.run step.1 rest

/-- The transition-table build of a command list. -/
def runTrans (d : P) (cmds : List (Cmd P)) : List (Seg P) :=
  let out := TransBuilder.run ⟨⟨0, ⟨d, d, d⟩⟩⟩ [] cmds
  out.2.finish out.1

/-- One unpacked drawing operation with its points — the common
abstraction both packed representations are compared through. -/
inductive BasicSeg (P : Type) where
  | move (p : P)
  | line (p : P)
  | quad (a b : P)
  | cube (a b c : P)

/-- Unpack a transition-table segment into its basic operations,
following the op enumeration. -/
def unpackTransSeg (s : Seg P) : List (BasicSeg P) :=
  match s.op with
  | 1 => [.move s.args.a0]
  | 2 => [.line s.args.a0]
  | 3 => [.quad s.args.a0 s.args.a1]
  | 4 => [.move s.args.a0, .move s.args.a1]
  | 5 => [.move s.args.a0, .line s.args.a1]
  | 6 => [.line s.args.a0, .line s.args.a1]
  | 7 => [.line s.args.a0, .move s.args.a1]
  | 8 => [.cube s.args.a0 s.args.a1 s.args.a2]
  | 9 => [.move s.args.a0, .quad s.args.a1 s.args.a2]
  | 10 => [.line s.args.a0, .quad s.args.a1 s.args.a2]
  | 11 => [.quad s.args.a0 s.args.a1, .move s.args.a2]
  | 12 => [.quad s.args.a0 s.args.a1, .line s.args.a2]
  | 13 => [.move s.args.a0, .move s.args.a1, .move s.args.a2]
  | 14 => [.move s.args.a0, .line s.args.a1, .move s.args.a2]
  | 15 => [.line s.args.a0, .line s.args.a1, .move s.args.a2]
  | 16 => [.line s.args.a0, .move s.args.a1, .move s.args.a2]
  | 17 => [.move s.args.a0, .move s.args.a1, .line s.args.a2]
  | 18 => [.move s.args.a0, .line s.args.a1, .line s.args.a2]
  | 19 => [.line s.args.a0, .line s.args.a1, .line s.args.a2]
  | 20 => [.line s.args.a0, .move s.args.a1, .line s.args.a2]
  | _ => []

/-- Unpack a bit-packed segment: two bits per point, 01 move, 10 line,
1111 quad (two points), 111111 cube (three points). -/
def unpackBitSeg (s : Seg P) : List (BasicSeg P) :=
  match s.op with
  | 1 => [.move s.args.a0]
  | 2 => [.line s.args.a0]
  | 15 => [.quad s.args.a0 s.args.a1]
  | 63 => [.cube s.args.a0 s.args.a1 s.args.a2]
  | 5 => [.move s.args.a0, .move s.args.a1]
  | 9 => [.move s.args.a0, .line s.args.a1]
  | 10 => [.line s.args.a0, .line s.args.a1]
  | 6 => [.line s.args.a0, .move s.args.a1]
  | 61 => [.move s.args.a0, .quad s.args.a1 s.args.a2]
  | 62 => [.line s.args.a0, .quad s.args.a1 s.args.a2]
  | 31 => [.quad s.args.a0 s.args.a1, .move s.args.a2]
  | 47 => [.quad s.args.a0 s.args.a1, .line s.args.a2]
  | 21 => [.move s.args.a0, .move s.args.a1, .move s.args.a2]
  | 25 => [.move s.args.a0, .line s.args.a1, .move s.args.a2]
  | 26 => [.line s.args.a0, .line s.args.a1, .move s.args.a2]
  | 22 => [.line s.args.a0, .move s.args.a1, .move s.args.a2]
  | 37 => [.move s.args.a0, .move s.args.a1, .line s.args.a2]
  | 41 => [.move s.args.a0, .line s.args.a1, .line s.args.a2]
  | 42 => [.line s.args.a0, .line s.args.a1, .line s.args.a2]
  | 38 => [.line s.args.a0, .move s.args.a1, .line s.args.a2]
  | _ => []

/-- The bit-packed op value corresponding to each enumeration op. -/
def opToBits : Nat → Nat
  | 0 => 0
  | 1 => 1
  | 2 => 2
  | 3 => 15
  | 4 => 5
  | 5 => 9
  | 6 => 10
  | 7 => 6
  | 8 => 63
  | 9 => 61
  | 10 => 62
  | 11 => 31
  | 12 => 47
  | 13 => 21
  | 14 => 25
  | 15 => 26
  | 16 => 22
  | 17 => 37
  | 18 => 41
  | 19 => 42
  | 20 => 38
  | _ + 21 => 0

/-- The simulation invariant between the two builders: equal unpacked
complete lists, corresponding pending ops, equal pending arguments, and
the pending enumeration op stays in the range of the transition
table. -/
def Corresponds (bb : BitBuilder P) (tc : List (Seg P))
    (tb : TransBuilder P) : Prop :=
  bb.complete.flatMap unpackBitSeg = tc.flatMap unpackTransSeg
    ∧ bb.tail.op = opToBits tb.tail.op
    ∧ bb.tail.args = tb.tail.args
    ∧ tb.tail.op < 8

end Opentype

namespace FontPkg

/-! ## Glyph data dispatch

Translated from the Face.GlyphData and Face.outlineGlyphData source:
the dispatch order over glyph sources.  The table parsers behind each
source (sbix, the embedded bitmap table, SVG, CFF, CFF2, glyf) are
outside the reviewed sources, so they are abstracted as function-valued
fields; the dispatch logic itself is a direct translation. -/

/-- An abstract face: one lookup function per glyph source, and the
zero outline value used by the Go zero-value assignment for SVG
fallbacks. -/
structure Face (B S O : Type) where
  sbixData : Nat → Option B
  bitmapData : Nat → Option B
  svgData : Nat → Option S
  cff1Data : Nat → Option O
  cff2Data : Nat → Option O
  glyfData : Nat → Option O
  zeroOutline : O

/-- A bitmap glyph result: the outline is attached only when the
outline tables provide it. -/
structure GlyphBitmap (B O : Type) where
  data : B
  outline : Option O

/-- An SVG glyph result: the outline field is always assigned, zero
valued when the outline tables provide nothing. -/
structure GlyphSVG (S O : Type) where
  source : S
  outline : O

/-- How to draw a glyph: a bitmap, an SVG or an outline. -/
inductive GlyphData (B S O : Type) where
  | bitmap (b : GlyphBitmap B O)
  | svg (s : GlyphSVG S O)
  | outline (o : O)

/-- Translated from Face.outlineGlyphData: look for data in the CFF,
CFF2 and glyf tables, in that order. -/
def Face.outlineGlyphData {B S O : Type} (f : Face B S O) (gid : Nat) :
    Option O :=
  match f.cff1Data gid with
  | some out => some out
  | none =>
    match f.cff2Data gid with
    | some out => some out
    | none => f.glyfData gid

/-- Translated from Face.GlyphData: the sbix bitmap first, then the
embedded bitmap table, then SVG, then the vector outline; the outline
is attached to bitmap results when present, to SVG results always. -/
def Face.glyphData {B S O : Type} (f : Face B S O) (gid : Nat) :
    Option (GlyphData B S O) :=
  match f.sbixData gid with
  | some outB => some (.bitmap ⟨outB, f.outlineGlyphData gid⟩)
  | none =>
    match f.bitmapData gid with
    | some outB => some (.bitmap ⟨outB, f.outlineGlyphData gid⟩)
    | none =>
      match f.svgData gid with
      | some outS =>
        some (.svg ⟨outS, (f.outlineGlyphData gid).getD f.zeroOutline⟩)
      | none =>
        match f.outlineGlyphData gid with
        | some out => some (.outline out)
        | none => none

/-- A concrete face for the dispatch witness: sbix and the other
sources populated with distinct markers. -/
def demoFace : Face Nat Nat Nat :=
  ⟨fun _ => some 11, fun _ => some 22, fun _ => some 33,
    fun _ => some 44, fun _ => none, fun _ => none, 0⟩

end FontPkg

namespace Fontscan

theorem contains_insertRune (s : RuneSet) (v r : Nat) :
    (s.insertRune v).Contains r = (decide (r = v) || s.Contains r) := by
  induction s with
  | nil =>
    simp only [RuneSet.insertRune, RuneSet.Contains]
    by_cases hdiv : r / 64 = v / 64
    · simp only [hdiv, if_pos rfl, Bool.or_false]
      by_cases hmod : r % 64 = v % 64
      · have : r = v := by omega
        simp [this, Nat.testBit_two_pow_self]
      · have : r ≠ v := by omega
        simp [this, Nat.testBit_two_pow_of_ne (fun h => hmod h.symm)]
    · have : r ≠ v := by omega
      simp [if_neg hdiv, this]
  | cons head rest ih =>
    obtain ⟨k, m⟩ := head
    simp only [RuneSet.insertRune]
    by_cases hv : v / 64 = k
    · simp only [if_pos hv, RuneSet.Contains]
      by_cases hr : r / 64 = k
      · simp only [if_pos hr, Nat.testBit_or]
        by_cases hmod : r % 64 = v % 64
        · have : r = v := by omega
          simp [this, Nat.testBit_two_pow_self]
        · have : r ≠ v := by omega
          simp [this, Nat.testBit_two_pow_of_ne (fun h => hmod h.symm)]
      · have : r ≠ v := by omega
        simp [if_neg hr, this]
    · simp only [if_neg hv, RuneSet.Contains]
      by_cases hr : r / 64 = k
      · have : r ≠ v := by omega
        simp [if_pos hr, this]
      · simp [if_neg hr, ih]

theorem contains_foldl_insertRune (l : List Nat) (s : RuneSet) (r : Nat) :
    (l.foldl RuneSet.insertRune s).Contains r
      = (s.Contains r || decide (r ∈ l)) := by
  induction l generalizing s with
  | nil => simp
  | cons v rest ih =>
    simp only [List.foldl_cons, ih, contains_insertRune, List.mem_cons]
    by_cases h : r = v <;> simp [h]

/-- RuneSet membership after construction is exactly membership in the
input list, whatever the order and multiplicity of its elements. -/
theorem contains_NewRuneSet (l : List Nat) (r : Nat) :
    (NewRuneSet l).Contains r = decide (r ∈ l) := by
  simp [NewRuneSet, contains_foldl_insertRune, RuneSet.Contains]

/-- C5: RuneSet construction is order-independent and
duplicate-insensitive: any two input lists with the same elements give
sets covering the same codepoints; in particular `New(1,0,2)` equals
`New(2,1,0)` and `New(1,0,2,0)` equals `New(1,0,2)` by covered
codepoints. -/
theorem runeset_new_order_independent :
    (∀ (l l' : List Nat), (∀ r, r ∈ l' ↔ r ∈ l) →
        ∀ r, (NewRuneSet l').Contains r = (NewRuneSet l).Contains r) ∧
      (∀ r, (NewRuneSet [1, 0, 2]).Contains r
        = (NewRuneSet [2, 1, 0]).Contains r) ∧
      (∀ r, (NewRuneSet [1, 0, 2, 0]).Contains r
        = (NewRuneSet [1, 0, 2]).Contains r) := by
  refine ⟨fun l l' h r => ?_, fun r => ?_, fun r => ?_⟩
  · simp [contains_NewRuneSet, h r]
  · simp [contains_NewRuneSet]
    by_cases h1 : r = 1 <;> by_cases h0 : r = 0 <;> by_cases h2 : r = 2 <;>
      simp [h1, h0, h2]
  · simp [contains_NewRuneSet]
    by_cases h0 : r = 0 <;> simp [h0]

/-- Witness for C5 at concrete inputs: the permuted list `[2,1,0]` covers
the same codepoints as `[1,0,2]`. -/
theorem runeset_new_order_independent_witness :
    (NewRuneSet [2, 1, 0]).Contains 2 = (NewRuneSet [1, 0, 2]).Contains 2 :=
  runeset_new_order_independent.1 [1, 0, 2] [2, 1, 0]
    (fun r => by simp only [List.mem_cons, List.not_mem_nil, or_false]; tauto) 2

/-! ## Cache codec lemmas -/

theorem ok_bind {e a b : Type} (x : a) (f : a → Except e b) :
    (Except.ok x >>= f) = f x := rfl

theorem error_bind {e a b : Type} (err : e) (f : a → Except e b) :
    ((Except.error err : Except e a) >>= f) = Except.error err := rfl

theorem decodeU32_encodeU32 (n : Nat) (h : n < 2 ^ 32) (rest : List Byte) :
    decodeU32 (encodeU32 n ++ rest) = .ok (n, rest) := by
  simp only [encodeU32, byteOf, List.cons_append, List.nil_append, decodeU32,
    Except.ok.injEq, Prod.mk.injEq]
  exact ⟨by omega, trivial⟩

theorem decodeU64_encodeU64 (n : Nat) (h : n < 2 ^ 64) (rest : List Byte) :
    decodeU64 (encodeU64 n ++ rest) = .ok (n, rest) := by
  simp only [encodeU64, byteOf, List.cons_append, List.nil_append, decodeU64,
    Except.ok.injEq, Prod.mk.injEq]
  exact ⟨by omega, trivial⟩

theorem readBytes_append (l rest : List Byte) :
    readBytes l.length (l ++ rest) = .ok (l, rest) := by
  have hle : l.length ≤ (l ++ rest).length := by
    simp [List.length_append]
  simp [readBytes, hle, List.take_left, List.drop_left]

theorem decodeAspect_encodeAspect (a : Aspect) (hw : a.weight < 2 ^ 32)
    (hs : a.stretch < 2 ^ 32) (rest : List Byte) :
    decodeAspect (encodeAspect a ++ rest) = .ok (a, rest) := by
  unfold decodeAspect encodeAspect
  simp only [List.cons_append, List.append_assoc, readByte, ok_bind]
  rw [decodeU32_encodeU32 _ hw]
  simp only [ok_bind]
  rw [decodeU32_encodeU32 _ hs]
  rfl

theorem decodeRuneBlocks_encode (s : List (Nat × Nat))
    (h : ∀ km ∈ s, km.1 < 2 ^ 32 ∧ km.2 < 2 ^ 64) (rest : List Byte) :
    decodeRuneBlocks s.length (s.flatMap encodeRuneBlock ++ rest)
      = .ok (s, rest) := by
  induction s with
  | nil => simp [decodeRuneBlocks]
  | cons km tl ih =>
    obtain ⟨k, m⟩ := km
    have hk := (h (k, m) (by simp)).1
    have hm := (h (k, m) (by simp)).2
    simp only [List.length_cons, List.flatMap_cons, encodeRuneBlock,
      List.append_assoc, decodeRuneBlocks]
    rw [decodeU32_encodeU32 k hk]
    simp only [ok_bind]
    rw [decodeU64_encodeU64 m hm]
    simp only [ok_bind]
    rw [ih (fun km hmem => h km (List.mem_cons_of_mem _ hmem))]
    rfl

theorem decodeRunes_encodeRunes (s : RuneSet) (h : ValidRunes s)
    (rest : List Byte) :
    decodeRunes (encodeRunes s ++ rest) = .ok (s, rest) := by
  obtain ⟨hlen, hblocks⟩ := h
  unfold decodeRunes encodeRunes
  simp only [List.append_assoc]
  rw [decodeU32_encodeU32 _ hlen]
  simp only [ok_bind]
  exact decodeRuneBlocks_encode s hblocks rest

theorem decodeFootprint_encodeFootprint (fp : Footprint)
    (h : ValidFootprint fp) (rest : List Byte) :
    decodeFootprint (encodeFootprint fp ++ rest) = .ok (fp, rest) := by
  obtain ⟨hfam, hw, hs, hr, hp, hi⟩ := h
  unfold decodeFootprint encodeFootprint
  simp only [List.append_assoc, List.cons_append, List.singleton_append,
    List.nil_append]
  rw [decodeU32_encodeU32 _ hfam]
  simp only [ok_bind]
  rw [readBytes_append]
  simp only [ok_bind]
  rw [decodeAspect_encodeAspect _ hw hs]
  simp only [ok_bind]
  rw [decodeRunes_encodeRunes _ hr]
  simp only [ok_bind, readByte]
  rw [decodeU32_encodeU32 _ hp]
  simp only [ok_bind]
  rw [readBytes_append]
  simp only [ok_bind]
  rw [decodeU32_encodeU32 _ hi]
  rfl

theorem decodeFootprintList_encode (idx : List Footprint)
    (h : ∀ fp ∈ idx, ValidFootprint fp) (rest : List Byte) :
    decodeFootprintList idx.length (idx.flatMap encodeFootprint ++ rest)
      = .ok (idx, rest) := by
  induction idx with
  | nil => simp [decodeFootprintList]
  | cons fp tl ih =>
    simp only [List.length_cons, List.flatMap_cons, List.append_assoc,
      decodeFootprintList]
    rw [decodeFootprint_encodeFootprint fp (h fp (by simp))]
    simp only [ok_bind]
    rw [ih (fun g hg => h g (List.mem_cons_of_mem _ hg))]
    rfl

theorem decode_encode_append (idx : List Footprint) (h : ValidIndex idx)
    (rest : List Byte) :
    Decode (Encode idx ++ rest) = .ok idx := by
  obtain ⟨hlen, hall⟩ := h
  unfold Decode Encode
  simp only [List.cons_append, List.append_assoc, if_pos]
  rw [decodeU32_encodeU32 _ hlen]
  simp only [ok_bind]
  rw [decodeFootprintList_encode idx hall rest]
  rfl

/-- C1: decoding the cache-codec encoding of a valid index yields the
index back, structurally equal. -/
theorem cache_codec_roundtrip (idx : List Footprint) (h : ValidIndex idx) :
    Decode (Encode idx) = .ok idx := by
  have h2 := decode_encode_append idx h []
  simpa using h2

/-- Witness for C1 at a concrete index featuring an empty RuneSet, an
empty family, the codepoints 0 and 0x10FFFF, and fractional weight and
stretch bit patterns. -/
theorem cache_codec_roundtrip_witness :
    ValidIndex demoIndex ∧ Decode (Encode demoIndex) = .ok demoIndex :=
  ⟨by decide, cache_codec_roundtrip demoIndex (by decide)⟩

/-! ## Cache codec error classification -/

theorem bind_eq_ok {e a b : Type} {x : Except e a} {f : a → Except e b}
    {out : b} (h : (x >>= f) = .ok out) :
    ∃ v, x = .ok v ∧ f v = .ok out := by
  cases x with
  | ok v => exact ⟨v, rfl, h⟩
  | error err => rw [error_bind] at h; exact absurd h (by simp)

theorem bind_not_error {e a b : Type} {x : Except e a} {f : a → Except e b}
    {err : e} (hx : x ≠ .error err) (hf : ∀ v, f v ≠ .error err) :
    (x >>= f) ≠ .error err := by
  cases x with
  | ok v => rw [ok_bind]; exact hf v
  | error err2 =>
    rw [error_bind]
    intro hc
    injection hc with hc2
    exact hx (by rw [hc2])

theorem decodeU32_ok {bs : List Byte} {v : Nat} {rest : List Byte}
    (h : decodeU32 bs = .ok (v, rest)) :
    bs = encodeU32 v ++ rest ∧ v < 2 ^ 32 := by
  rcases bs with _ | ⟨b0, bs⟩
  · exact absurd h (by simp [decodeU32])
  rcases bs with _ | ⟨b1, bs⟩
  · exact absurd h (by simp [decodeU32])
  rcases bs with _ | ⟨b2, bs⟩
  · exact absurd h (by simp [decodeU32])
  rcases bs with _ | ⟨b3, r⟩
  · exact absurd h (by simp [decodeU32])
  simp only [decodeU32, Except.ok.injEq, Prod.mk.injEq] at h
  obtain ⟨hv, hr⟩ := h
  subst hr
  have h0 : b0.val < 256 := b0.isLt
  have h1 : b1.val < 256 := b1.isLt
  have h2 : b2.val < 256 := b2.isLt
  have h3 : b3.val < 256 := b3.isLt
  refine ⟨?_, by omega⟩
  have e0 : byteOf v = b0 := by apply Fin.ext; show v % 256 = b0.val; omega
  have e1 : byteOf (v / 2 ^ 8) = b1 := by
    apply Fin.ext; show v / 2 ^ 8 % 256 = b1.val; omega
  have e2 : byteOf (v / 2 ^ 16) = b2 := by
    apply Fin.ext; show v / 2 ^ 16 % 256 = b2.val; omega
  have e3 : byteOf (v / 2 ^ 24) = b3 := by
    apply Fin.ext; show v / 2 ^ 24 % 256 = b3.val; omega
  simp only [encodeU32, List.cons_append, List.nil_append, e0, e1, e2, e3]

theorem decodeU64_ok {bs : List Byte} {v : Nat} {rest : List Byte}
    (h : decodeU64 bs = .ok (v, rest)) :
    bs = encodeU64 v ++ rest ∧ v < 2 ^ 64 := by
  rcases bs with _ | ⟨b0, bs⟩
  · exact absurd h (by simp [decodeU64])
  rcases bs with _ | ⟨b1, bs⟩
  · exact absurd h (by simp [decodeU64])
  rcases bs with _ | ⟨b2, bs⟩
  · exact absurd h (by simp [decodeU64])
  rcases bs with _ | ⟨b3, bs⟩
  · exact absurd h (by simp [decodeU64])
  rcases bs with _ | ⟨b4, bs⟩
  · exact absurd h (by simp [decodeU64])
  rcases bs with _ | ⟨b5, bs⟩
  · exact absurd h (by simp [decodeU64])
  rcases bs with _ | ⟨b6, bs⟩
  · exact absurd h (by simp [decodeU64])
  rcases bs with _ | ⟨b7, r⟩
  · exact absurd h (by simp [decodeU64])
  simp only [decodeU64, Except.ok.injEq, Prod.mk.injEq] at h
  obtain ⟨hv, hr⟩ := h
  subst hr
  have h0 : b0.val < 256 := b0.isLt
  have h1 : b1.val < 256 := b1.isLt
  have h2 : b2.val < 256 := b2.isLt
  have h3 : b3.val < 256 := b3.isLt
  have h4 : b4.val < 256 := b4.isLt
  have h5 : b5.val < 256 := b5.isLt
  have h6 : b6.val < 256 := b6.isLt
  have h7 : b7.val < 256 := b7.isLt
  refine ⟨?_, by omega⟩
  have e0 : byteOf v = b0 := by apply Fin.ext; show v % 256 = b0.val; omega
  have e1 : byteOf (v / 2 ^ 8) = b1 := by
    apply Fin.ext; show v / 2 ^ 8 % 256 = b1.val; omega
  have e2 : byteOf (v / 2 ^ 16) = b2 := by
    apply Fin.ext; show v / 2 ^ 16 % 256 = b2.val; omega
  have e3 : byteOf (v / 2 ^ 24) = b3 := by
    apply Fin.ext; show v / 2 ^ 24 % 256 = b3.val; omega
  have e4 : byteOf (v / 2 ^ 32) = b4 := by
    apply Fin.ext; show v / 2 ^ 32 % 256 = b4.val; omega
  have e5 : byteOf (v / 2 ^ 40) = b5 := by
    apply Fin.ext; show v / 2 ^ 40 % 256 = b5.val; omega
  have e6 : byteOf (v / 2 ^ 48) = b6 := by
    apply Fin.ext; show v / 2 ^ 48 % 256 = b6.val; omega
  have e7 : byteOf (v / 2 ^ 56) = b7 := by
    apply Fin.ext; show v / 2 ^ 56 % 256 = b7.val; omega
  simp only [encodeU64, List.cons_append, List.nil_append, e0, e1, e2, e3,
    e4, e5, e6, e7]

theorem readByte_ok {bs : List Byte} {b : Byte} {rest : List Byte}
    (h : readByte bs = .ok (b, rest)) : bs = b :: rest := by
  rcases bs with _ | ⟨b0, bs⟩
  · exact absurd h (by simp [readByte])
  · simp only [readByte, Except.ok.injEq, Prod.mk.injEq] at h
    obtain ⟨h1, h2⟩ := h
    subst h1
    subst h2
    rfl

theorem readBytes_ok {n : Nat} {bs t d : List Byte}
    (h : readBytes n bs = .ok (t, d)) : bs = t ++ d ∧ t.length = n := by
  unfold readBytes at h
  split at h
  case isTrue hle =>
    simp only [Except.ok.injEq, Prod.mk.injEq] at h
    obtain ⟨ht, hd⟩ := h
    subst ht
    subst hd
    refine ⟨(List.take_append_drop n bs).symm, ?_⟩
    rw [List.length_take]
    omega
  case isFalse hgt => exact absurd h (by simp)

theorem decodeAspect_ok {bs : List Byte} {a : Aspect} {rest : List Byte}
    (h : decodeAspect bs = .ok (a, rest)) :
    bs = encodeAspect a ++ rest ∧ a.weight < 2 ^ 32 ∧ a.stretch < 2 ^ 32 := by
  unfold decodeAspect at h
  obtain ⟨⟨style, bs1⟩, h1, h⟩ := bind_eq_ok h
  obtain ⟨⟨w, bs2⟩, h2, h⟩ := bind_eq_ok h
  obtain ⟨⟨st, bs3⟩, h3, h⟩ := bind_eq_ok h
  simp only [Except.ok.injEq, Prod.mk.injEq] at h
  obtain ⟨ha, hrest⟩ := h
  subst ha
  subst hrest
  have e1 := readByte_ok h1
  obtain ⟨e2, hw⟩ := decodeU32_ok h2
  obtain ⟨e3, hs⟩ := decodeU32_ok h3
  subst e1
  subst e2
  subst e3
  exact ⟨by simp [encodeAspect], hw, hs⟩

theorem decodeRuneBlocks_ok : ∀ {n : Nat} {bs : List Byte}
    {s : List (Nat × Nat)} {rest : List Byte},
    decodeRuneBlocks n bs = .ok (s, rest) →
    bs = s.flatMap encodeRuneBlock ++ rest ∧ s.length = n
      ∧ ∀ km ∈ s, km.1 < 2 ^ 32 ∧ km.2 < 2 ^ 64 := by
  intro n
  induction n with
  | zero =>
    intro bs s rest h
    simp only [decodeRuneBlocks, Except.ok.injEq, Prod.mk.injEq] at h
    obtain ⟨hs, hr⟩ := h
    subst hs
    subst hr
    simp
  | succ n ih =>
    intro bs s rest h
    unfold decodeRuneBlocks at h
    obtain ⟨⟨k, bs1⟩, h1, h⟩ := bind_eq_ok h
    obtain ⟨⟨m, bs2⟩, h2, h⟩ := bind_eq_ok h
    obtain ⟨⟨tl, bs3⟩, h3, h⟩ := bind_eq_ok h
    simp only [Except.ok.injEq, Prod.mk.injEq] at h
    obtain ⟨hs, hr⟩ := h
    subst hs
    subst hr
    obtain ⟨e1, hk⟩ := decodeU32_ok h1
    obtain ⟨e2, hm⟩ := decodeU64_ok h2
    obtain ⟨e3, hlen, hall⟩ := ih h3
    subst e1
    subst e2
    subst e3
    refine ⟨by simp [encodeRuneBlock], by simp [hlen], ?_⟩
    intro km hkm
    rcases List.mem_cons.mp hkm with hh | hh
    · subst hh
      exact ⟨hk, hm⟩
    · exact hall km hh

theorem decodeRunes_ok {bs : List Byte} {s : RuneSet} {rest : List Byte}
    (h : decodeRunes bs = .ok (s, rest)) :
    bs = encodeRunes s ++ rest ∧ ValidRunes s := by
  unfold decodeRunes at h
  obtain ⟨⟨n, bs1⟩, h1, h⟩ := bind_eq_ok h
  obtain ⟨e1, hn⟩ := decodeU32_ok h1
  obtain ⟨e2, hlen, hall⟩ := decodeRuneBlocks_ok h
  subst e1
  subst e2
  constructor
  · simp [encodeRunes, hlen]
  · exact ⟨by rw [hlen]; exact hn, hall⟩

theorem decodeFootprint_ok {bs : List Byte} {fp : Footprint}
    {rest : List Byte} (h : decodeFootprint bs = .ok (fp, rest)) :
    bs = encodeFootprint fp ++ rest ∧ ValidFootprint fp := by
  unfold decodeFootprint at h
  obtain ⟨⟨flen, bs1⟩, h1, h⟩ := bind_eq_ok h
  obtain ⟨⟨family, bs2⟩, h2, h⟩ := bind_eq_ok h
  obtain ⟨⟨aspect, bs3⟩, h3, h⟩ := bind_eq_ok h
  obtain ⟨⟨runes, bs4⟩, h4, h⟩ := bind_eq_ok h
  obtain ⟨⟨format, bs5⟩, h5, h⟩ := bind_eq_ok h
  obtain ⟨⟨plen, bs6⟩, h6, h⟩ := bind_eq_ok h
  obtain ⟨⟨path, bs7⟩, h7, h⟩ := bind_eq_ok h
  obtain ⟨⟨faceIndex, bs8⟩, h8, h⟩ := bind_eq_ok h
  simp only [Except.ok.injEq, Prod.mk.injEq] at h
  obtain ⟨hfp, hr⟩ := h
  subst hfp
  subst hr
  obtain ⟨e1, hflen⟩ := decodeU32_ok h1
  obtain ⟨e2, hfamlen⟩ := readBytes_ok h2
  obtain ⟨e3, hw, hs⟩ := decodeAspect_ok h3
  obtain ⟨e4, hrunes⟩ := decodeRunes_ok h4
  have e5 := readByte_ok h5
  obtain ⟨e6, hplen⟩ := decodeU32_ok h6
  obtain ⟨e7, hpathlen⟩ := readBytes_ok h7
  obtain ⟨e8, hface⟩ := decodeU32_ok h8
  subst e1
  subst e2
  subst e3
  subst e4
  subst e5
  subst e6
  subst e7
  subst e8
  constructor
  · simp [encodeFootprint, hfamlen, hpathlen]
  · exact ⟨by rw [hfamlen]; exact hflen, hw, hs, hrunes,
      by rw [hpathlen]; exact hplen, hface⟩

theorem decodeFootprintList_ok : ∀ {n : Nat} {bs : List Byte}
    {fps : List Footprint} {rest : List Byte},
    decodeFootprintList n bs = .ok (fps, rest) →
    bs = fps.flatMap encodeFootprint ++ rest ∧ fps.length = n
      ∧ ∀ fp ∈ fps, ValidFootprint fp := by
  intro n
  induction n with
  | zero =>
    intro bs fps rest h
    simp only [decodeFootprintList, Except.ok.injEq, Prod.mk.injEq] at h
    obtain ⟨hs, hr⟩ := h
    subst hs
    subst hr
    simp
  | succ n ih =>
    intro bs fps rest h
    unfold decodeFootprintList at h
    obtain ⟨⟨fp, bs1⟩, h1, h⟩ := bind_eq_ok h
    obtain ⟨⟨tl, bs2⟩, h2, h⟩ := bind_eq_ok h
    simp only [Except.ok.injEq, Prod.mk.injEq] at h
    obtain ⟨hs, hr⟩ := h
    subst hs
    subst hr
    obtain ⟨e1, hfp⟩ := decodeFootprint_ok h1
    obtain ⟨e2, hlen, hall⟩ := ih h2
    subst e1
    subst e2
    refine ⟨by simp, by simp [hlen], ?_⟩
    intro g hg
    rcases List.mem_cons.mp hg with hh | hh
    · subst hh
      exact hfp
    · exact hall g hh

theorem decode_ok {bs : List Byte} {fps : List Footprint}
    (h : Decode bs = .ok fps) :
    ∃ leftover, bs = Encode fps ++ leftover ∧ ValidIndex fps := by
  rcases bs with _ | ⟨v, bs1⟩
  · exact absurd h (by simp [Decode])
  simp only [Decode] at h
  by_cases hv : v = cacheVersion
  case pos =>
    rw [if_pos hv] at h
    obtain ⟨⟨n, bs2⟩, h1, h⟩ := bind_eq_ok h
    obtain ⟨⟨fps2, bs3⟩, h2, h⟩ := bind_eq_ok h
    simp only [Except.ok.injEq] at h
    subst h
    obtain ⟨e1, hn⟩ := decodeU32_ok h1
    obtain ⟨e2, hlen, hall⟩ := decodeFootprintList_ok h2
    subst hv
    subst e1
    subst e2
    exact ⟨bs3, by simp [Encode, hlen], by rw [hlen]; exact hn, hall⟩
  case neg =>
    rw [if_neg hv] at h
    exact absurd h (by simp)

theorem decodeU32_not_bad (bs : List Byte) :
    decodeU32 bs ≠ .error .badVersion := by
  unfold decodeU32
  split <;> simp

theorem decodeU64_not_bad (bs : List Byte) :
    decodeU64 bs ≠ .error .badVersion := by
  unfold decodeU64
  split <;> simp

theorem readByte_not_bad (bs : List Byte) :
    readByte bs ≠ .error .badVersion := by
  unfold readByte
  split <;> simp

theorem readBytes_not_bad (n : Nat) (bs : List Byte) :
    readBytes n bs ≠ .error .badVersion := by
  unfold readBytes
  split <;> simp

theorem decodeAspect_not_bad (bs : List Byte) :
    decodeAspect bs ≠ .error .badVersion := by
  unfold decodeAspect
  refine bind_not_error (readByte_not_bad bs) ?_
  rintro ⟨style, bs1⟩
  refine bind_not_error (decodeU32_not_bad bs1) ?_
  rintro ⟨w, bs2⟩
  refine bind_not_error (decodeU32_not_bad bs2) ?_
  rintro ⟨st, bs3⟩
  simp

theorem decodeRuneBlocks_not_bad : ∀ (n : Nat) (bs : List Byte),
    decodeRuneBlocks n bs ≠ .error .badVersion := by
  intro n
  induction n with
  | zero => intro bs; simp [decodeRuneBlocks]
  | succ n ih =>
    intro bs
    unfold decodeRuneBlocks
    refine bind_not_error (decodeU32_not_bad bs) ?_
    rintro ⟨k, bs1⟩
    refine bind_not_error (decodeU64_not_bad bs1) ?_
    rintro ⟨m, bs2⟩
    refine bind_not_error (ih bs2) ?_
    rintro ⟨tl, bs3⟩
    simp

theorem decodeRunes_not_bad (bs : List Byte) :
    decodeRunes bs ≠ .error .badVersion := by
  unfold decodeRunes
  refine bind_not_error (decodeU32_not_bad bs) ?_
  rintro ⟨n, bs1⟩
  exact decodeRuneBlocks_not_bad n bs1

theorem decodeFootprint_not_bad (bs : List Byte) :
    decodeFootprint bs ≠ .error .badVersion := by
  unfold decodeFootprint
  refine bind_not_error (decodeU32_not_bad bs) ?_
  rintro ⟨flen, bs1⟩
  refine bind_not_error (readBytes_not_bad flen bs1) ?_
  rintro ⟨family, bs2⟩
  refine bind_not_error (decodeAspect_not_bad bs2) ?_
  rintro ⟨aspect, bs3⟩
  refine bind_not_error (decodeRunes_not_bad bs3) ?_
  rintro ⟨runes, bs4⟩
  refine bind_not_error (readByte_not_bad bs4) ?_
  rintro ⟨format, bs5⟩
  refine bind_not_error (decodeU32_not_bad bs5) ?_
  rintro ⟨plen, bs6⟩
  refine bind_not_error (readBytes_not_bad plen bs6) ?_
  rintro ⟨path, bs7⟩
  refine bind_not_error (decodeU32_not_bad bs7) ?_
  rintro ⟨faceIndex, bs8⟩
  simp

theorem decodeFootprintList_not_bad : ∀ (n : Nat) (bs : List Byte),
    decodeFootprintList n bs ≠ .error .badVersion := by
  intro n
  induction n with
  | zero => intro bs; simp [decodeFootprintList]
  | succ n ih =>
    intro bs
    unfold decodeFootprintList
    refine bind_not_error (decodeFootprint_not_bad bs) ?_
    rintro ⟨fp, bs1⟩
    refine bind_not_error (ih bs1) ?_
    rintro ⟨tl, bs2⟩
    simp

theorem decode_badVersion_iff (bs : List Byte) :
    Decode bs = .error .badVersion ↔
      ∃ b rest, bs = b :: rest ∧ b ≠ cacheVersion := by
  constructor
  · intro h
    rcases bs with _ | ⟨v, bs1⟩
    · exact absurd h (by simp [Decode])
    by_cases hv : v = cacheVersion
    · exfalso
      simp only [Decode, if_pos hv] at h
      refine bind_not_error (decodeU32_not_bad bs1) ?_ h
      rintro ⟨n, bs2⟩
      refine bind_not_error (decodeFootprintList_not_bad n bs2) ?_
      rintro ⟨fps, bs3⟩
      simp
    · exact ⟨v, bs1, rfl, hv⟩
  · rintro ⟨b, rest, hbs, hb⟩
    subst hbs
    simp [Decode, hb]

theorem decode_front_fails (idx : List Footprint) (p ext : List Byte)
    (hv : ValidIndex idx) (henc : Encode idx = p ++ ext) (hne : ext ≠ []) :
    Decode p = .error .truncated ∨ Decode p = .error .lengthOverrun := by
  cases hD : Decode p with
  | ok fps =>
    exfalso
    obtain ⟨leftover, hp, hvfps⟩ := decode_ok hD
    have h2 : Decode (Encode fps ++ (leftover ++ ext)) = .ok fps :=
      decode_encode_append fps hvfps _
    have h3 : Encode idx = Encode fps ++ (leftover ++ ext) := by
      rw [henc, hp, List.append_assoc]
    have h4 : Decode (Encode idx) = .ok idx := by
      have := decode_encode_append idx hv []
      simpa using this
    rw [h3, h2] at h4
    have h5 : fps = idx := by
      injection h4
    have h6 := congrArg List.length h3
    simp only [List.length_append, h5] at h6
    have h7 : ext.length ≠ 0 := fun hc => hne (List.eq_nil_of_length_eq_zero hc)
    omega
  | error e =>
    cases e with
    | truncated => exact Or.inl rfl
    | lengthOverrun => exact Or.inr rfl
    | badVersion =>
      exfalso
      obtain ⟨b, rest, hbs, hb⟩ := (decode_badVersion_iff p).mp hD
      subst hbs
      rcases ext with _ | ⟨x, xs⟩
      · exact hne rfl
      · apply hb
        have := congrArg (fun l => l.head?) henc
        simp only [Encode, List.cons_append, List.head?] at this
        injection this with h9
        exact h9.symm

/-- C6: the cache decoder is total — every byte sequence either decodes
or yields a DecodeError; it reports a bad version exactly when the first
byte exists and is not the recognized version; and a proper front
portion of a valid encoding (a stream truncated mid-record) always fails
with a truncation or length-overrun error, never succeeding and never
panicking. -/
theorem decode_error_taxonomy :
    (∀ bs : List Byte,
        (∃ idx, Decode bs = .ok idx) ∨ ∃ e, Decode bs = .error e) ∧
      (∀ bs : List Byte, Decode bs = .error .badVersion ↔
        ∃ b rest, bs = b :: rest ∧ b ≠ cacheVersion) ∧
      (∀ (idx : List Footprint) (p ext : List Byte), ValidIndex idx →
        Encode idx = p ++ ext → ext ≠ [] →
        Decode p = .error .truncated ∨ Decode p = .error .lengthOverrun) := by
  refine ⟨fun bs => ?_, decode_badVersion_iff, decode_front_fails⟩
  cases h : Decode bs with
  | ok idx => exact Or.inl ⟨idx, rfl⟩
  | error e => exact Or.inr ⟨e, rfl⟩

/-- Witness for C6 at a concrete input: the encoding of the empty index
cut after its first byte fails with truncation or length overrun. -/
theorem decode_error_taxonomy_witness :
    Decode [1] = .error .truncated ∨ Decode [1] = .error .lengthOverrun :=
  decode_error_taxonomy.2.2 [] [1] [0, 0, 0, 0] (by decide) (by decide)
    (by decide)

/-! ## Substitution engine lemmas -/

theorem appendIfAbsent_extends (acc : List String) (f : String) :
    ∃ ext, appendIfAbsent acc f = acc ++ ext := by
  unfold appendIfAbsent
  split
  · exact ⟨[], by simp⟩
  · exact ⟨[f], rfl⟩

theorem foldl_appendIfAbsent_extends (fs : List String) (acc : List String) :
    ∃ ext, fs.foldl appendIfAbsent acc = acc ++ ext := by
  induction fs generalizing acc with
  | nil => exact ⟨[], by simp⟩
  | cons f tl ih =>
    obtain ⟨e1, h1⟩ := appendIfAbsent_extends acc f
    obtain ⟨e2, h2⟩ := ih (appendIfAbsent acc f)
    refine ⟨e1 ++ e2, ?_⟩
    rw [List.foldl_cons, h2, h1, List.append_assoc]

theorem applyRule_extends (acc : List String) (r : SubstitutionRule) :
    ∃ ext, applyRule acc r = acc ++ ext := by
  unfold applyRule
  split
  · exact foldl_appendIfAbsent_extends _ _
  · exact ⟨[], by simp⟩

theorem foldl_applyRule_extends (rules : List SubstitutionRule)
    (acc : List String) : ∃ ext, rules.foldl applyRule acc = acc ++ ext := by
  induction rules generalizing acc with
  | nil => exact ⟨[], by simp⟩
  | cons r tl ih =>
    obtain ⟨e1, h1⟩ := applyRule_extends acc r
    obtain ⟨e2, h2⟩ := ih (applyRule acc r)
    refine ⟨e1 ++ e2, ?_⟩
    rw [List.foldl_cons, h2, h1, List.append_assoc]

theorem appendIfAbsent_nodup {acc : List String} (h : acc.Nodup)
    (f : String) : (appendIfAbsent acc f).Nodup := by
  unfold appendIfAbsent
  split
  · exact h
  · next hne => simp [List.nodup_append, h, hne]

theorem foldl_appendIfAbsent_nodup (fs : List String) {acc : List String}
    (h : acc.Nodup) : (fs.foldl appendIfAbsent acc).Nodup := by
  induction fs generalizing acc with
  | nil => exact h
  | cons f tl ih => exact ih (appendIfAbsent_nodup h f)

theorem applyRule_nodup {acc : List String} (h : acc.Nodup)
    (r : SubstitutionRule) : (applyRule acc r).Nodup := by
  unfold applyRule
  split
  · exact foldl_appendIfAbsent_nodup _ h
  · exact h

theorem foldl_applyRule_nodup (rules : List SubstitutionRule)
    {acc : List String} (h : acc.Nodup) :
    (rules.foldl applyRule acc).Nodup := by
  induction rules generalizing acc with
  | nil => exact h
  | cons r tl ih => exact ih (applyRule_nodup h r)

/-- C2: `Expand` always returns a duplicate-free list headed by the
requested family and, being a single fold over the finite rule list, it
terminates; on the documented rules it yields exactly
[Arial, Arimo, sans-serif, DejaVu Sans, Verdana] for Arial and
[Arimo, sans-serif, DejaVu Sans, Verdana] for Arimo. -/
theorem expand_contract :
    (∀ (rules : List SubstitutionRule) (f : String),
        (Expand rules f).Nodup ∧ (Expand rules f).head? = some f) ∧
      Expand demoRules "Arial"
        = ["Arial", "Arimo", "sans-serif", "DejaVu Sans", "Verdana"] ∧
      Expand demoRules "Arimo"
        = ["Arimo", "sans-serif", "DejaVu Sans", "Verdana"] := by
  refine ⟨fun rules f => ⟨?_, ?_⟩, by decide, by decide⟩
  · exact foldl_applyRule_nodup rules (by simp)
  · obtain ⟨ext, hext⟩ := foldl_applyRule_extends rules [f]
    rw [Expand, hext]
    rfl

/-! ## Matcher lemmas -/

theorem keyLT_of_band {i j : Nat} (x y : ℚ) (h : i < j) :
    keyLT (i, x) (j, y) = true := by
  unfold keyLT
  simp [h]

theorem keyLT_of_dist {i : Nat} {x y : ℚ} (h : x < y) :
    keyLT (i, x) (i, y) = true := by
  unfold keyLT
  simp [h]

/-- C4: the weight axis preference rule of the matcher, expressed on the
weight keys that `Match` minimizes: below 400 the candidates at or below
the desired weight win over those above, nearest first within each side;
between 400 and 500 inclusive the candidates between the desired weight
and 500 win, then those below the desired weight, then those above 500,
nearest first within each band; above 500 the candidates at or above the
desired weight win over those below, nearest first within each side. -/
theorem weight_fallback_rule : ∀ d w1 w2 : ℚ,
    (d < 400 → w1 ≤ d → d < w2 →
        keyLT (weightKey d w1) (weightKey d w2) = true) ∧
      (d < 400 → w1 ≤ d → w2 ≤ d → d - w1 < d - w2 →
        keyLT (weightKey d w1) (weightKey d w2) = true) ∧
      (d < 400 → d < w1 → d < w2 → w1 - d < w2 - d →
        keyLT (weightKey d w1) (weightKey d w2) = true) ∧
      (400 ≤ d → d ≤ 500 → d ≤ w1 → w1 ≤ 500 → (w2 < d ∨ 500 < w2) →
        keyLT (weightKey d w1) (weightKey d w2) = true) ∧
      (400 ≤ d → d ≤ 500 → d ≤ w1 → w1 ≤ 500 → d ≤ w2 → w2 ≤ 500 →
        w1 - d < w2 - d →
        keyLT (weightKey d w1) (weightKey d w2) = true) ∧
      (400 ≤ d → d ≤ 500 → w1 < d → 500 < w2 →
        keyLT (weightKey d w1) (weightKey d w2) = true) ∧
      (400 ≤ d → d ≤ 500 → w1 < d → w2 < d → d - w1 < d - w2 →
        keyLT (weightKey d w1) (weightKey d w2) = true) ∧
      (400 ≤ d → d ≤ 500 → 500 < w1 → 500 < w2 → w1 - d < w2 - d →
        keyLT (weightKey d w1) (weightKey d w2) = true) ∧
      (500 < d → d ≤ w1 → w2 < d →
        keyLT (weightKey d w1) (weightKey d w2) = true) ∧
      (500 < d → d ≤ w1 → d ≤ w2 → w1 - d < w2 - d →
        keyLT (weightKey d w1) (weightKey d w2) = true) ∧
      (500 < d → w1 < d → w2 < d → d - w1 < d - w2 →
        keyLT (weightKey d w1) (weightKey d w2) = true) := by
  intro d w1 w2
  refine ⟨?_, ?_, ?_, ?_, ?_, ?_, ?_, ?_, ?_, ?_, ?_⟩
  · intro h1 h2 h3
    have k1 : weightKey d w1 = (0, d - w1) := by
      simp only [weightKey]
      rw [if_pos h1, if_pos h2]
    have k2 : weightKey d w2 = (1, w2 - d) := by
      simp only [weightKey]
      rw [if_pos h1, if_neg (by linarith : ¬ w2 ≤ d)]
    rw [k1, k2]
    exact keyLT_of_band _ _ (by norm_num)
  · intro h1 h2 h3 h4
    have k1 : weightKey d w1 = (0, d - w1) := by
      simp only [weightKey]
      rw [if_pos h1, if_pos h2]
    have k2 : weightKey d w2 = (0, d - w2) := by
      simp only [weightKey]
      rw [if_pos h1, if_pos h3]
    rw [k1, k2]
    exact keyLT_of_dist h4
  · intro h1 h2 h3 h4
    have k1 : weightKey d w1 = (1, w1 - d) := by
      simp only [weightKey]
      rw [if_pos h1, if_neg (by linarith : ¬ w1 ≤ d)]
    have k2 : weightKey d w2 = (1, w2 - d) := by
      simp only [weightKey]
      rw [if_pos h1, if_neg (by linarith : ¬ w2 ≤ d)]
    rw [k1, k2]
    exact keyLT_of_dist h4
  · intro h1 h2 h3 h4 h5
    have hn400 : ¬ d < 400 := by linarith
    have k1 : weightKey d w1 = (0, w1 - d) := by
      simp only [weightKey]
      rw [if_neg hn400, if_pos h2, if_pos ⟨h3, h4⟩]
    rcases h5 with h5 | h5
    · have k2 : weightKey d w2 = (1, d - w2) := by
        simp only [weightKey]
        rw [if_neg hn400, if_pos h2,
          if_neg (fun hc : d ≤ w2 ∧ w2 ≤ 500 => by linarith [hc.1]),
          if_pos h5]
      rw [k1, k2]
      exact keyLT_of_band _ _ (by norm_num)
    · have k2 : weightKey d w2 = (2, w2 - d) := by
        simp only [weightKey]
        rw [if_neg hn400, if_pos h2,
          if_neg (fun hc : d ≤ w2 ∧ w2 ≤ 500 => by linarith [hc.2]),
          if_neg (by linarith : ¬ w2 < d)]
      rw [k1, k2]
      exact keyLT_of_band _ _ (by norm_num)
  · intro h1 h2 h3 h4 h5 h6 h7
    have hn400 : ¬ d < 400 := by linarith
    have k1 : weightKey d w1 = (0, w1 - d) := by
      simp only [weightKey]
      rw [if_neg hn400, if_pos h2, if_pos ⟨h3, h4⟩]
    have k2 : weightKey d w2 = (0, w2 - d) := by
      simp only [weightKey]
      rw [if_neg hn400, if_pos h2, if_pos ⟨h5, h6⟩]
    rw [k1, k2]
    exact keyLT_of_dist h7
  · intro h1 h2 h3 h4
    have hn400 : ¬ d < 400 := by linarith
    have k1 : weightKey d w1 = (1, d - w1) := by
      simp only [weightKey]
      rw [if_neg hn400, if_pos h2,
        if_neg (fun hc : d ≤ w1 ∧ w1 ≤ 500 => by linarith [hc.1]),
        if_pos h3]
    have k2 : weightKey d w2 = (2, w2 - d) := by
      simp only [weightKey]
      rw [if_neg hn400, if_pos h2,
        if_neg (fun hc : d ≤ w2 ∧ w2 ≤ 500 => by linarith [hc.2]),
        if_neg (by linarith : ¬ w2 < d)]
    rw [k1, k2]
    exact keyLT_of_band _ _ (by norm_num)
  · intro h1 h2 h3 h4 h5
    have hn400 : ¬ d < 400 := by linarith
    have k1 : weightKey d w1 = (1, d - w1) := by
      simp only [weightKey]
      rw [if_neg hn400, if_pos h2,
        if_neg (fun hc : d ≤ w1 ∧ w1 ≤ 500 => by linarith [hc.1]),
        if_pos h3]
    have k2 : weightKey d w2 = (1, d - w2) := by
      simp only [weightKey]
      rw [if_neg hn400, if_pos h2,
        if_neg (fun hc : d ≤ w2 ∧ w2 ≤ 500 => by linarith [hc.1]),
        if_pos h4]
    rw [k1, k2]
    exact keyLT_of_dist h5
  · intro h1 h2 h3 h4 h5
    have hn400 : ¬ d < 400 := by linarith
    have k1 : weightKey d w1 = (2, w1 - d) := by
      simp only [weightKey]
      rw [if_neg hn400, if_pos h2,
        if_neg (fun hc : d ≤ w1 ∧ w1 ≤ 500 => by linarith [hc.2]),
        if_neg (by linarith : ¬ w1 < d)]
    have k2 : weightKey d w2 = (2, w2 - d) := by
      simp only [weightKey]
      rw [if_neg hn400, if_pos h2,
        if_neg (fun hc : d ≤ w2 ∧ w2 ≤ 500 => by linarith [hc.2]),
        if_neg (by linarith : ¬ w2 < d)]
    rw [k1, k2]
    exact keyLT_of_dist h5
  · intro h1 h2 h3
    have hn400 : ¬ d < 400 := by linarith
    have hn500 : ¬ d ≤ 500 := by linarith
    have k1 : weightKey d w1 = (0, w1 - d) := by
      simp only [weightKey]
      rw [if_neg hn400, if_neg hn500, if_pos h2]
    have k2 : weightKey d w2 = (1, d - w2) := by
      simp only [weightKey]
      rw [if_neg hn400, if_neg hn500, if_neg (by linarith : ¬ d ≤ w2)]
    rw [k1, k2]
    exact keyLT_of_band _ _ (by norm_num)
  · intro h1 h2 h3 h4
    have hn400 : ¬ d < 400 := by linarith
    have hn500 : ¬ d ≤ 500 := by linarith
    have k1 : weightKey d w1 = (0, w1 - d) := by
      simp only [weightKey]
      rw [if_neg hn400, if_neg hn500, if_pos h2]
    have k2 : weightKey d w2 = (0, w2 - d) := by
      simp only [weightKey]
      rw [if_neg hn400, if_neg hn500, if_pos h3]
    rw [k1, k2]
    exact keyLT_of_dist h4
  · intro h1 h2 h3 h4
    have hn400 : ¬ d < 400 := by linarith
    have hn500 : ¬ d ≤ 500 := by linarith
    have k1 : weightKey d w1 = (1, d - w1) := by
      simp only [weightKey]
      rw [if_neg hn400, if_neg hn500, if_neg (by linarith : ¬ d ≤ w1)]
    have k2 : weightKey d w2 = (1, d - w2) := by
      simp only [weightKey]
      rw [if_neg hn400, if_neg hn500, if_neg (by linarith : ¬ d ≤ w2)]
    rw [k1, k2]
    exact keyLT_of_dist h4

/-- Witness for C4 at concrete weights: desired 300, candidates 200 and
350 — the lower candidate is preferred. -/
theorem weight_fallback_rule_witness :
    keyLT (weightKey 300 200) (weightKey 300 350) = true :=
  (weight_fallback_rule 300 200 350).1 (by norm_num) (by norm_num)
    (by norm_num)

/-- C3: the style fallback orders of the matcher, and the documented
scenario — a query of (Italic, ExtraBold 800) over the candidates
(Normal, Bold 700) and (Oblique, Bold 700) in one family selects the
oblique candidate, never the normal one. -/
theorem style_fallback_match :
    (styleScore .italic .italic = 0 ∧ styleScore .italic .oblique = 1
        ∧ styleScore .italic .normal = 2)
      ∧ (styleScore .oblique .oblique = 0 ∧ styleScore .oblique .italic = 1
        ∧ styleScore .oblique .normal = 2)
      ∧ (styleScore .normal .normal = 0 ∧ styleScore .normal .oblique = 1
        ∧ styleScore .normal .italic = 2)
      ∧ Match [fpNormalBold, fpObliqueBold] ["family"]
        ⟨.italic, 800, 1⟩ none = [fpObliqueBold] := by
  refine ⟨⟨rfl, rfl, rfl⟩, ⟨rfl, rfl, rfl⟩, ⟨rfl, rfl, rfl⟩, ?_⟩
  norm_num [Match, matchFamily, familyCandidates, filterBest, minKey, keyLT,
    stretchKey, styleScore, weightKey, fpNormalBold, fpObliqueBold,
    NewRuneSet, List.flatMap, List.filter, List.foldl]

theorem filterBest_nil (key : MatchFootprint → Nat × ℚ) :
    filterBest key [] = [] := rfl

/-- C7: the matcher never fails — an empty family chain gives an empty
list; a chain matching no footprint gives an empty list; and a required
rune covered by no footprint gives an empty list even when family
matches exist. -/
theorem match_empty_policy :
    (∀ (idx : List MatchFootprint) (a : MatchAspect) (r : Option Nat),
        Match idx [] a r = []) ∧
      (∀ (idx : List MatchFootprint) (chain : List String) (a : MatchAspect)
        (r : Option Nat), (∀ fp ∈ idx, fp.family ∉ chain) →
        Match idx chain a r = []) ∧
      (∀ (idx : List MatchFootprint) (chain : List String) (a : MatchAspect)
        (rq : Nat), (∀ fp ∈ idx, fp.runes.Contains rq = false) →
        Match idx chain a (some rq) = []) := by
  refine ⟨fun idx a r => rfl, fun idx chain a r h => ?_,
    fun idx chain a rq h => ?_⟩
  · unfold Match
    rw [List.flatMap_eq_nil_iff]
    intro fam hfam
    have hc : familyCandidates idx fam r = [] := by
      unfold familyCandidates
      rw [List.filter_eq_nil_iff]
      intro fp hfp
      have hne : fp.family ≠ fam := fun hc => (h fp hfp) (hc ▸ hfam)
      simp [hne]
    simp [matchFamily, hc, filterBest_nil]
  · unfold Match
    rw [List.flatMap_eq_nil_iff]
    intro fam hfam
    have hc : familyCandidates idx fam (some rq) = [] := by
      unfold familyCandidates
      rw [List.filter_eq_nil_iff]
      intro fp hfp
      simp [h fp hfp]
    simp [matchFamily, hc, filterBest_nil]

/-- Witness for C7 at a concrete input: a required rune covered by no
footprint yields an empty result although the family matches. -/
theorem match_empty_policy_witness :
    Match [fpNormalBold] ["family"] ⟨.normal, 400, 1⟩ (some 65) = [] :=
  match_empty_policy.2.2 [fpNormalBold] ["family"] ⟨.normal, 400, 1⟩ 65
    (by decide)

end Fontscan

namespace Opentype

theorem two_pow_mul_lor_eq_add : ∀ (k a b : Nat), b < 2 ^ k →
    (2 ^ k * a) ||| b = 2 ^ k * a + b := by
  intro k
  induction k with
  | zero =>
    intro a b hb
    have hb0 : b = 0 := by omega
    subst hb0
    simp
  | succ k ih =>
    intro a b hb
    have hdiv : ((2 ^ (k + 1) * a) ||| b) / 2 = (2 ^ k * a) ||| (b / 2) := by
      rw [Nat.or_div_two]
      congr 1
      rw [Nat.pow_succ, Nat.mul_right_comm,
        Nat.mul_div_cancel _ (by norm_num : (0 : Nat) < 2)]
    have hmod : ((2 ^ (k + 1) * a) ||| b) % 2 = b % 2 := by
      have h2 : (2 ^ (k + 1) * a) % 2 = 0 := by
        rw [Nat.pow_succ, Nat.mul_right_comm]
        exact Nat.mul_mod_left _ 2
      rcases Nat.mod_two_eq_zero_or_one b with hb2 | hb2
      · rcases Nat.mod_two_eq_zero_or_one ((2 ^ (k + 1) * a) ||| b) with h | h
        · omega
        · have := Nat.or_mod_two_eq_one.mp h
          omega
      · rw [hb2]
        exact Nat.or_mod_two_eq_one.mpr (Or.inr hb2)
    have hih : (2 ^ k * a) ||| (b / 2) = 2 ^ k * a + b / 2 :=
      ih a (b / 2) (by rw [Nat.pow_succ] at hb; omega)
    have hdm := Nat.div_add_mod ((2 ^ (k + 1) * a) ||| b) 2
    rw [hdiv, hih, hmod] at hdm
    rw [← hdm, Nat.pow_succ, Nat.mul_right_comm]
    omega

theorem lor_shiftLeft_eq_add (x y k : Nat) (hy : y < 2 ^ k) :
    (x <<< k) ||| y = x * 2 ^ k + y := by
  rw [Nat.shiftLeft_eq, Nat.mul_comm x (2 ^ k),
    two_pow_mul_lor_eq_add k x y hy, Nat.mul_comm]

theorem newTag_eq (a b c d : Byte) :
    NewTag a b c d
      = a.val * 2 ^ 24 + b.val * 2 ^ 16 + c.val * 2 ^ 8 + d.val := by
  unfold NewTag
  have ha := a.isLt
  have hb := b.isLt
  have hc := c.isLt
  have hd := d.isLt
  rw [Nat.or_comm (d.val ||| (c.val <<< 8) ||| (b.val <<< 16))
    (a.val <<< 24)]
  rw [Nat.or_comm (d.val ||| (c.val <<< 8)) (b.val <<< 16)]
  rw [Nat.or_comm d.val (c.val <<< 8)]
  rw [lor_shiftLeft_eq_add c.val d.val 8 (by omega)]
  rw [lor_shiftLeft_eq_add b.val (c.val * 2 ^ 8 + d.val) 16 (by omega)]
  rw [lor_shiftLeft_eq_add a.val
    (b.val * 2 ^ 16 + (c.val * 2 ^ 8 + d.val)) 24 (by omega)]
  omega

theorem tagString_newTag (a b c d : Byte) :
    tagString (NewTag a b c d) = [a, b, c, d] := by
  have ha := a.isLt
  have hb := b.isLt
  have hc := c.isLt
  have hd := d.isLt
  have ht := newTag_eq a b c d
  unfold tagString
  have e0 : Fontscan.byteOf (NewTag a b c d >>> 24) = a := by
    apply Fin.ext
    show NewTag a b c d >>> 24 % 256 = a.val
    rw [Nat.shiftRight_eq_div_pow]
    omega
  have e1 : Fontscan.byteOf (NewTag a b c d >>> 16) = b := by
    apply Fin.ext
    show NewTag a b c d >>> 16 % 256 = b.val
    rw [Nat.shiftRight_eq_div_pow]
    omega
  have e2 : Fontscan.byteOf (NewTag a b c d >>> 8) = c := by
    apply Fin.ext
    show NewTag a b c d >>> 8 % 256 = c.val
    rw [Nat.shiftRight_eq_div_pow]
    omega
  have e3 : Fontscan.byteOf (NewTag a b c d) = d := by
    apply Fin.ext
    show NewTag a b c d % 256 = d.val
    omega
  rw [e0, e1, e2, e3]

/-- C8: tags round-trip — `MustNewTag` followed by `String` recovers any
4-byte string; `String` followed by `MustNewTag` recovers any 32-bit
tag; and `MustNewTag` panics (modelled as `none`) exactly when its
argument is not 4 bytes long. -/
theorem tag_roundtrip :
    (∀ s : List Byte, s.length = 4 →
        (MustNewTag s).map tagString = some s) ∧
      (∀ t : Nat, t < 2 ^ 32 → MustNewTag (tagString t) = some t) ∧
      (∀ s : List Byte, MustNewTag s = none ↔ s.length ≠ 4) := by
  refine ⟨?_, ?_, ?_⟩
  · intro s hlen
    rcases s with _ | ⟨a, _ | ⟨b, _ | ⟨c, _ | ⟨d, _ | ⟨e, tl⟩⟩⟩⟩⟩
    · exact absurd hlen (by simp)
    · exact absurd hlen (by simp)
    · exact absurd hlen (by simp)
    · exact absurd hlen (by simp)
    · simp [MustNewTag, tagString_newTag]
    · exact absurd hlen
        (by simp only [List.length_cons]; omega)
  · intro t ht
    have hm : MustNewTag (tagString t)
        = some (NewTag (Fontscan.byteOf (t >>> 24))
          (Fontscan.byteOf (t >>> 16)) (Fontscan.byteOf (t >>> 8))
          (Fontscan.byteOf t)) := rfl
    rw [hm, newTag_eq]
    have v0 : (Fontscan.byteOf (t >>> 24)).val = t >>> 24 % 256 := rfl
    have v1 : (Fontscan.byteOf (t >>> 16)).val = t >>> 16 % 256 := rfl
    have v2 : (Fontscan.byteOf (t >>> 8)).val = t >>> 8 % 256 := rfl
    have v3 : (Fontscan.byteOf t).val = t % 256 := rfl
    rw [v0, v1, v2, v3, Nat.shiftRight_eq_div_pow, Nat.shiftRight_eq_div_pow,
      Nat.shiftRight_eq_div_pow]
    congr 1
    omega
  · intro s
    rcases s with _ | ⟨a, _ | ⟨b, _ | ⟨c, _ | ⟨d, _ | ⟨e, tl⟩⟩⟩⟩⟩
    · rw [show MustNewTag [] = none from rfl]
      simp
    · rw [show MustNewTag [a] = none from rfl]
      simp
    · rw [show MustNewTag [a, b] = none from rfl]
      simp
    · rw [show MustNewTag [a, b, c] = none from rfl]
      simp
    · rw [show MustNewTag [a, b, c, d] = some (NewTag a b c d) from rfl]
      simp
    · rw [show MustNewTag (a :: b :: c :: d :: e :: tl) = none from rfl]
      constructor
      · intro h2
        simp only [List.length_cons]
        omega
      · intro h2
        rfl

/-- Witness for C8 at the concrete 4-byte tag GSUB. -/
theorem tag_roundtrip_witness :
    (MustNewTag [71, 83, 85, 66]).map tagString = some [71, 83, 85, 66] :=
  tag_roundtrip.1 [71, 83, 85, 66] (by decide)

end Opentype

namespace FontPkg

/-- C10: Face.GlyphData consults the glyph sources in the fixed order —
sbix bitmap, embedded bitmap table, SVG, vector outline (CFF, then
CFF2, then glyf) — returns the result of the first source that provides
the glyph, attaching the outline to bitmap results when available and to
SVG results always (zero valued when missing), and returns nothing
exactly when none of the four sources provides the glyph. -/
theorem glyphData_priority {B S O : Type} (f : Face B S O) (gid : Nat) :
    (∀ b, f.sbixData gid = some b →
        f.glyphData gid = some (.bitmap ⟨b, f.outlineGlyphData gid⟩)) ∧
      (f.sbixData gid = none → ∀ b, f.bitmapData gid = some b →
        f.glyphData gid = some (.bitmap ⟨b, f.outlineGlyphData gid⟩)) ∧
      (f.sbixData gid = none → f.bitmapData gid = none →
        ∀ sv, f.svgData gid = some sv →
        f.glyphData gid
          = some (.svg ⟨sv, (f.outlineGlyphData gid).getD f.zeroOutline⟩)) ∧
      (f.sbixData gid = none → f.bitmapData gid = none →
        f.svgData gid = none →
        f.glyphData gid = (f.outlineGlyphData gid).map .outline) ∧
      (f.glyphData gid = none ↔ f.sbixData gid = none
        ∧ f.bitmapData gid = none ∧ f.svgData gid = none
        ∧ f.outlineGlyphData gid = none) ∧
      (∀ o, f.cff1Data gid = some o → f.outlineGlyphData gid = some o) ∧
      (f.cff1Data gid = none → ∀ o, f.cff2Data gid = some o →
        f.outlineGlyphData gid = some o) ∧
      (f.cff1Data gid = none → f.cff2Data gid = none →
        f.outlineGlyphData gid = f.glyfData gid) := by
  refine ⟨?_, ?_, ?_, ?_, ?_, ?_, ?_, ?_⟩
  · intro b hb
    unfold Face.glyphData
    rw [hb]
  · intro h1 b hb
    unfold Face.glyphData
    rw [h1, hb]
  · intro h1 h2 sv hs
    unfold Face.glyphData
    rw [h1, h2, hs]
  · intro h1 h2 h3
    unfold Face.glyphData
    rw [h1, h2, h3]
    cases f.outlineGlyphData gid <;> rfl
  · unfold Face.glyphData
    cases h1 : f.sbixData gid <;> cases h2 : f.bitmapData gid <;>
      cases h3 : f.svgData gid <;> cases h4 : f.outlineGlyphData gid <;>
      simp [h1, h2, h3, h4]
  · intro o ho
    unfold Face.outlineGlyphData
    rw [ho]
  · intro h1 o ho
    unfold Face.outlineGlyphData
    rw [h1, ho]
  · intro h1 h2
    unfold Face.outlineGlyphData
    rw [h1, h2]

/-- Witness for C10 at the concrete demo face: the sbix source wins. -/
theorem glyphData_priority_witness :
    demoFace.glyphData 5
      = some (.bitmap ⟨11, demoFace.outlineGlyphData 5⟩) :=
  (glyphData_priority demoFace 5).1 11 rfl

end FontPkg

namespace Opentype

theorem flatMap_append_singleton {P : Type} (l1 l2 : List (Seg P))
    (s1 s2 : Seg P)
    (h : l1.flatMap unpackBitSeg = l2.flatMap unpackTransSeg)
    (hs : unpackBitSeg s1 = unpackTransSeg s2) :
    (l1 ++ [s1]).flatMap unpackBitSeg
      = (l2 ++ [s2]).flatMap unpackTransSeg := by
  rw [List.flatMap_append, List.flatMap_append, h]
  simp [hs]

theorem corresponds_moveTo {P : Type} {bb : BitBuilder P}
    {tc : List (Seg P)} {tb : TransBuilder P} (h : Corresponds bb tc tb)
    (p : P) :
    Corresponds (bb.moveTo p) (tb.moveTo tc p).1 (tb.moveTo tc p).2 := by
  obtain ⟨hc, hop, hargs, hlt⟩ := h
  obtain ⟨bcomp, bop, bargs⟩ := bb
  obtain ⟨top, targs⟩ := tb
  dsimp only at hc hop hargs hlt ⊢
  subst hop
  subst hargs
  have hcase : top = 0 ∨ top = 1 ∨ top = 2 ∨ top = 3 ∨ top = 4 ∨ top = 5
      ∨ top = 6 ∨ top = 7 := by omega
  rcases hcase with rfl | rfl | rfl | rfl | rfl | rfl | rfl | rfl <;>
    first
      | exact ⟨hc, rfl, rfl, of_decide_eq_true rfl⟩
      | exact ⟨flatMap_append_singleton _ _ _ _ hc rfl, rfl, rfl,
          of_decide_eq_true rfl⟩

theorem corresponds_lineTo {P : Type} {bb : BitBuilder P}
    {tc : List (Seg P)} {tb : TransBuilder P} (h : Corresponds bb tc tb)
    (p : P) :
    Corresponds (bb.lineTo p) (tb.lineTo tc p).1 (tb.lineTo tc p).2 := by
  obtain ⟨hc, hop, hargs, hlt⟩ := h
  obtain ⟨bcomp, bop, bargs⟩ := bb
  obtain ⟨top, targs⟩ := tb
  dsimp only at hc hop hargs hlt ⊢
  subst hop
  subst hargs
  have hcase : top = 0 ∨ top = 1 ∨ top = 2 ∨ top = 3 ∨ top = 4 ∨ top = 5
      ∨ top = 6 ∨ top = 7 := by omega
  rcases hcase with rfl | rfl | rfl | rfl | rfl | rfl | rfl | rfl <;>
    first
      | exact ⟨hc, rfl, rfl, of_decide_eq_true rfl⟩
      | exact ⟨flatMap_append_singleton _ _ _ _ hc rfl, rfl, rfl,
          of_decide_eq_true rfl⟩

theorem corresponds_quadTo {P : Type} {bb : BitBuilder P}
    {tc : List (Seg P)} {tb : TransBuilder P} (h : Corresponds bb tc tb)
    (a b : P) :
    Corresponds (bb.quadTo a b) (tb.quadTo tc a b).1 (tb.quadTo tc a b).2 := by
  obtain ⟨hc, hop, hargs, hlt⟩ := h
  obtain ⟨bcomp, bop, bargs⟩ := bb
  obtain ⟨top, targs⟩ := tb
  dsimp only at hc hop hargs hlt ⊢
  subst hop
  subst hargs
  have hcase : top = 0 ∨ top = 1 ∨ top = 2 ∨ top = 3 ∨ top = 4 ∨ top = 5
      ∨ top = 6 ∨ top = 7 := by omega
  rcases hcase with rfl | rfl | rfl | rfl | rfl | rfl | rfl | rfl <;>
    first
      | exact ⟨hc, rfl, rfl, of_decide_eq_true rfl⟩
      | exact ⟨flatMap_append_singleton _ _ _ _ hc rfl, rfl, rfl,
          of_decide_eq_true rfl⟩

theorem corresponds_cubeTo {P : Type} {bb : BitBuilder P}
    {tc : List (Seg P)} {tb : TransBuilder P} (h : Corresponds bb tc tb)
    (a b c : P) :
    Corresponds (bb.cubeTo a b c) (tb.cubeTo tc a b c).1
      (tb.cubeTo tc a b c).2 := by
  obtain ⟨hc, hop, hargs, hlt⟩ := h
  obtain ⟨bcomp, bop, bargs⟩ := bb
  obtain ⟨top, targs⟩ := tb
  dsimp only at hc hop hargs hlt ⊢
  subst hop
  subst hargs
  have hcase : top = 0 ∨ top = 1 ∨ top = 2 ∨ top = 3 ∨ top = 4 ∨ top = 5
      ∨ top = 6 ∨ top = 7 := by omega
  rcases hcase with rfl | rfl | rfl | rfl | rfl | rfl | rfl | rfl <;>
    first
      | exact ⟨flatMap_append_singleton _ _ _ _ hc rfl, rfl, rfl,
          of_decide_eq_true rfl⟩
      | exact ⟨flatMap_append_singleton _ _ _ _
          (flatMap_append_singleton _ _ _ _ hc rfl) rfl, rfl, rfl,
          of_decide_eq_true rfl⟩

theorem corresponds_run {P : Type} (cmds : List (Cmd P)) :
    ∀ (bb : BitBuilder P) (tc : List (Seg P)) (tb : TransBuilder P),
    Corresponds bb tc tb →
    Corresponds (bb.run cmds) (TransBuilder.run tb tc cmds).1
      (TransBuilder.run tb tc cmds).2 := by
  induction cmds with
  | nil => intro bb tc tb h; exact h
  | cons c rest ih =>
    intro bb tc tb h
    cases c with
    | moveTo p =>
      simp only [BitBuilder.run, TransBuilder.run]
      exact ih _ _ _ (corresponds_moveTo h p)
    | lineTo p =>
      simp only [BitBuilder.run, TransBuilder.run]
      exact ih _ _ _ (corresponds_lineTo h p)
    | quadTo a b =>
      simp only [BitBuilder.run, TransBuilder.run]
      exact ih _ _ _ (corresponds_quadTo h a b)
    | cubeTo a b c =>
      simp only [BitBuilder.run, TransBuilder.run]
      exact ih _ _ _ (corresponds_cubeTo h a b c)

theorem corresponds_finish {P : Type} {bb : BitBuilder P}
    {tc : List (Seg P)} {tb : TransBuilder P} (h : Corresponds bb tc tb) :
    bb.finish.flatMap unpackBitSeg
      = (tb.finish tc).flatMap unpackTransSeg := by
  obtain ⟨hc, hop, hargs, hlt⟩ := h
  obtain ⟨bcomp, bop, bargs⟩ := bb
  obtain ⟨top, targs⟩ := tb
  dsimp only at hc hop hargs hlt ⊢
  subst hop
  subst hargs
  have hcase : top = 0 ∨ top = 1 ∨ top = 2 ∨ top = 3 ∨ top = 4 ∨ top = 5
      ∨ top = 6 ∨ top = 7 := by omega
  rcases hcase with rfl | rfl | rfl | rfl | rfl | rfl | rfl | rfl <;>
    first
      | exact hc
      | exact flatMap_append_singleton _ _ _ _ hc rfl

/-- C9: the bit-packed SegmentsBuilder and the transition-table
SegmentsBuilder are equivalent — for every finite sequence of MoveTo,
LineTo, QuadTo and CubeTo calls, the segment lists their Finish methods
produce unpack to the same ordered sequence of basic (operation,
point-arguments) pairs. -/
theorem builders_equivalent (P : Type) (d : P) (cmds : List (Cmd P)) :
    (runBit d cmds).flatMap unpackBitSeg
      = (runTrans d cmds).flatMap unpackTransSeg := by
  have h0 : Corresponds (⟨[], ⟨0, ⟨d, d, d⟩⟩⟩ : BitBuilder P) []
      (⟨⟨0, ⟨d, d, d⟩⟩⟩ : TransBuilder P) := ⟨rfl, rfl, rfl, by norm_num⟩
  exact corresponds_finish (corresponds_run cmds _ _ _ h0)

end Opentype
